import Mathlib

/-!
Verification of the gonum/graph algorithm library against its design
specification.  The Go sources are shallowly embedded: node identifiers are
`Int` (Go `int`), Go `map` values are association lists with Go's
zero-value read semantics made explicit, and Go loops are either structural
folds or fuel-indexed recursions.  The `float64` weight domain is modelled
by a type parameter `W` carrying exactly the operations the algorithms use
(addition, zero, decidable strict order and equality); concrete runs
instantiate `W := ℤ`, general theorems hold for any such `W` (in particular
`W := ℚ`).
-/

deriving instance DecidableEq for Except

namespace Gonum

/-! ## Go maps

A Go `map[int]V` is modelled as an association list with unique keys.
Reading an absent key in Go yields the zero value of `V`; `getD` makes the
default explicit at every read site.
-/
abbrev IntMap (α : Type) : Type := List (Int × α)

namespace IntMap

def empty {α : Type} : IntMap α := []

def get? {α : Type} : IntMap α → Int → Option α
  | [], _ => none
  | (k', v) :: m, k => if k = k' then some v else get? m k

def getD {α : Type} (m : IntMap α) (k : Int) (d : α) : α :=
  (m.get? k).getD d

def insert {α : Type} : IntMap α → Int → α → IntMap α
  | [], k, v => [(k, v)]
  | (k', v') :: m, k, v => if k = k' then (k, v) :: m else (k', v') :: insert m k v

def erase {α : Type} : IntMap α → Int → IntMap α
  | [], _ => []
  | (k', v') :: m, k => if k = k' then m else (k', v') :: erase m k

def keys {α : Type} (m : IntMap α) : List Int := m.map (·.1)

def contains {α : Type} (m : IntMap α) (k : Int) : Bool := (m.get? k).isSome

def size {α : Type} (m : IntMap α) : Nat := m.length

end IntMap

namespace IntMap

variable {α : Type}

end IntMap

/-- Iterate a function a fixed number of times (Go counted `for` loop). -/
def iterateN {α : Type} (f : α → α) : Nat → α → α
  | 0, a => a
  | n + 1, a => iterateN f n (f a)

section BellmanFord

variable {W : Type} [LinearOrder W] [Add W] [Zero W]

/-! ## path.BellmanFord (src/path/path.go)

The graph capability bundle produced by `setupFuncs` is abstracted by the
node enumeration `nodes` (the slice returned by `g.Nodes()`, in its
enumeration order), the successor function `succ` (`sf.from`) and the weight
on present edges `w` (`sf.weight ∘ sf.edgeTo`).  `nodeIDMap` in the source
maps an id to its node value; with ids as the node values it is the
identity and is dropped.
-/
structure BFState (W : Type) where
  costs : IntMap W
  pred : IntMap Int
deriving DecidableEq

/-- One relaxation of the edge (u,v):
`if dist := costs[node.ID()] + weight; dist < costs[succ.ID()]`.
Both map reads use Go's zero default `0` for absent keys. -/
def relaxEdge (w : Int → Int → W) (u v : Int) (st : BFState W) : BFState W :=
  let dist := st.costs.getD u 0 + w u v
  if dist < st.costs.getD v 0 then
    { costs := st.costs.insert v dist, pred := st.pred.insert v u }
  else st

/-- Relax all out-edges of one node. -/
def relaxNode (succ : Int → List Int) (w : Int → Int → W) (st : BFState W) (u : Int) :
    BFState W :=
  (succ u).foldl (fun s v => relaxEdge w u v s) st

/-- One full pass over the node list. -/
def relaxPass (nodes : List Int) (succ : Int → List Int) (w : Int → Int → W)
    (st : BFState W) : BFState W :=
  nodes.foldl (relaxNode succ w) st

/-- The final scan: does any edge still relax? -/
def bfAnyRelaxable (nodes : List Int) (succ : Int → List Int) (w : Int → Int → W)
    (st : BFState W) : Bool :=
  nodes.any fun u => (succ u).any fun v =>
    decide (st.costs.getD u 0 + w u v < st.costs.getD v 0)

/-- Path reconstruction (`rebuildPath`): walk the predecessor map backwards
from the goal, then reverse.  The accumulator builds the reversed walk
directly.  The Go loop runs until the key is absent; the fuel only cuts a
cyclic predecessor map short (where Go would not terminate). -/
def rebuildPathAux (pred : IntMap Int) : Nat → Int → List Int → List Int
  | 0, _, acc => acc
  | n + 1, curr, acc =>
    match pred.get? curr with
    | none => acc
    | some p => rebuildPathAux pred n p (p :: acc)

def rebuildPath (pred : IntMap Int) (goal : Int) : List Int :=
  rebuildPathAux pred (pred.size + 1) goal [goal]

/-- `paths` construction: one reconstructed path per key of the cost map. -/
def bfPaths (st : BFState W) : IntMap (List Int) :=
  st.costs.keys.foldl (fun m k => m.insert k (rebuildPath st.pred k)) IntMap.empty

/-- BellmanFord.  `costs[source.ID()] = 0` is the only initial entry; the
main loop `for i := 1; i < len(nodes)-1; i++` performs `len(nodes) - 2`
passes; the final scan reports the negative-cycle error with both result
maps nil, modelled by `Except.error`. -/
def bellmanFord (nodes : List Int) (succ : Int → List Int) (w : Int → Int → W)
    (source : Int) : Except String (IntMap (List Int) × IntMap W) :=
  let init : BFState W := { costs := IntMap.empty.insert source 0, pred := IntMap.empty }
  let st := iterateN (relaxPass nodes succ w) (nodes.length - 2) init
  if bfAnyRelaxable nodes succ w st then
    .error "Negative edge cycle detected"
  else
    .ok (bfPaths st, st.costs)

end BellmanFord

/-! ### Concrete instances for Bellman-Ford -/
/-- Chain 0 → 1 → 2. -/
def bfChainSucc : Int → List Int
  | 0 => [1]
  | 1 => [2]
  | _ => []

/-- Both chain edges of weight 1. -/
def bfChainW : Int → Int → ℤ := fun _ _ => 1

/-- Both chain edges of weight -1 (the graph stays acyclic). -/
def bfNegChainW : Int → Int → ℤ := fun _ _ => -1

/-! ## The A* indexed priority queue (src/unnamed/part_000, `aStarPriorityQueue`)
together with the Go `container/heap` driver functions.  A Go slice index
out of range panics; the queue operations below are only ever invoked
in range by the algorithms (the `Option` reads fall back to the unchanged
state on the never-taken out-of-range branch). -/
section AStarPQ

variable {W : Type} [LinearOrder W] [Add W] [Zero W]

structure InternalNode (W : Type) where
  id : Int
  gscore : W
  fscore : W
deriving DecidableEq

structure APQ (W : Type) where
  indexList : IntMap Nat
  nodes : List (InternalNode W)
deriving DecidableEq

namespace APQ

/-- `pq.Less(i, j)`: compare by fscore. -/
def less (pq : APQ W) (i j : Nat) : Bool :=
  match pq.nodes.get? i, pq.nodes.get? j with
  | some a, some b => decide (a.fscore < b.fscore)
  | _, _ => false

/-- `pq.Swap(i, j)`: update the position map for both ids, then swap the
slice entries. -/
def swap (pq : APQ W) (i j : Nat) : APQ W :=
  match pq.nodes.get? i, pq.nodes.get? j with
  | some a, some b =>
    { indexList := (pq.indexList.insert a.id j).insert b.id i,
      nodes := (pq.nodes.set i b).set j a }
  | _, _ => pq

/-- `container/heap.up`.  The sift index strictly decreases, so a fuel of
`j + 1` can never be exhausted: the fuelled loop equals Go's unbounded
loop. -/
def upFuel : Nat → APQ W → Nat → APQ W
  | 0, pq, _ => pq
  | fuel + 1, pq, j =>
    let i := (j - 1) / 2
    if i = j ∨ ¬ pq.less j i then pq
    else upFuel fuel (pq.swap i j) i

def up (pq : APQ W) (j : Nat) : APQ W := upFuel (j + 1) pq j

/-- `container/heap.down`, returning the final index (Go mutates `i` and
finally reports `i > i0`).  The sift index strictly increases and stays
below `n`, so a fuel of `n` can never be exhausted. -/
def downFuel : Nat → APQ W → Nat → Nat → APQ W × Nat
  | 0, pq, i, _ => (pq, i)
  | fuel + 1, pq, i, n =>
    let j1 := 2 * i + 1
    if n ≤ j1 then (pq, i)
    else
      let j := if j1 + 1 < n ∧ pq.less (j1 + 1) j1 then j1 + 1 else j1
      if ¬ pq.less j i then (pq, i)
      else downFuel fuel (pq.swap i j) j n

def downAux (pq : APQ W) (i n : Nat) : APQ W × Nat := downFuel n pq i n

def down (pq : APQ W) (i0 n : Nat) : APQ W × Bool :=
  let r := downAux pq i0 n
  (r.1, decide (i0 < r.2))

/-- `heap.Push`: `pq.Push(x)` appends and records the position, then sifts
up from the last slot. -/
def push (pq : APQ W) (x : InternalNode W) : APQ W :=
  let pq1 : APQ W :=
    { indexList := pq.indexList.insert x.id pq.nodes.length,
      nodes := pq.nodes ++ [x] }
  pq1.up (pq1.nodes.length - 1)

/-- `heap.Pop`: swap the root to the end, sift down over the shortened
prefix, then `pq.Pop()` removes and returns the last entry, deleting its
position-map key.  Go panics on an empty queue; callers guard with
`Len() != 0`. -/
def pop (pq : APQ W) : Option (InternalNode W) × APQ W :=
  let n := pq.nodes.length - 1
  let pq1 := pq.swap 0 n
  let pq2 := (pq1.down 0 n).1
  match pq2.nodes.getLast? with
  | none => (none, pq2)
  | some x =>
    (some x, { indexList := pq2.indexList.erase x.id, nodes := pq2.nodes.dropLast })

/-- `pq.Find(id)`: position-map lookup, then the slice entry. -/
def find (pq : APQ W) (id : Int) : Option (InternalNode W) :=
  match pq.indexList.get? id with
  | some loc => pq.nodes.get? loc
  | none => none

/-- `pq.Fix(id, newG, newF)`: overwrite the stored scores, then
`heap.Fix`: sift down, and if nothing moved sift up.  Absent id is a
no-op. -/
def fix (pq : APQ W) (id : Int) (g f : W) : APQ W :=
  match pq.indexList.get? id with
  | none => pq
  | some i =>
    let nodes' :=
      match pq.nodes.get? i with
      | some nd => pq.nodes.set i { nd with gscore := g, fscore := f }
      | none => pq.nodes
    let pq1 : APQ W := { indexList := pq.indexList, nodes := nodes' }
    let r := pq1.down i pq1.nodes.length
    if r.2 then r.1 else r.1.up i

def len (pq : APQ W) : Nat := pq.nodes.length

def empty : APQ W := { indexList := IntMap.empty, nodes := [] }

end APQ

end AStarPQ

/-! ### Well-formedness of the indexed priority queue

`PQWF` packages the §4.2 invariant: distinct ids, distinct position-map
keys, and the position map holding exactly each node's slot.  Every queue
operation preserves it, and the node list evolves by permutation plus the
pushed/popped element. -/
section APQLemmas

variable {W : Type} [LinearOrder W] [Add W] [Zero W]

/-- The ids currently held in the queue, in slot order. -/
def idsOf (pq : APQ W) : List Int := pq.nodes.map (·.id)

def PQWF (pq : APQ W) : Prop :=
  (idsOf pq).Nodup ∧
  (IntMap.keys pq.indexList).Nodup ∧
  ∀ (id : Int) (i : Nat), pq.indexList.get? id = some i ↔
    ∃ nd, pq.nodes.get? i = some nd ∧ nd.id = id

end APQLemmas

/-! ## path.AStar and path.Dijkstra (src/path/path.go)

`from_` is `sf.from`, `w` is `sf.weight ∘ sf.edgeTo` and `heuristic` is
`sf.heuristic`, all keyed on node ids.  The Go `for openSet.Len() != 0`
loops are fuel-indexed; `none` means the fuel ran out before the loop
finished. -/
section AStarAlgo

variable {W : Type} [LinearOrder W] [Add W] [Zero W]

structure AStarState (W : Type) where
  closedSet : IntMap (InternalNode W)
  openSet : APQ W
  predecessor : IntMap Int
  nodesExpanded : Nat

/-- The neighbor scan of one expanded node `curr`. -/
def aStarScan (goal : Int) (w : Int → Int → W) (heuristic : Int → Int → W)
    (curr : InternalNode W) (st : AStarState W) (v : Int) : AStarState W :=
  if (st.closedSet.get? v).isSome then st
  else
    let g := curr.gscore + w curr.id v
    match st.openSet.find v with
    | none =>
      { st with
        predecessor := st.predecessor.insert v curr.id,
        openSet := st.openSet.push { id := v, gscore := g, fscore := g + heuristic v goal } }
    | some existing =>
      if g < existing.gscore then
        { st with
          predecessor := st.predecessor.insert v curr.id,
          openSet := st.openSet.fix v g (g + heuristic v goal) }
      else st

def aStarLoop (goal : Int) (from_ : Int → List Int) (w : Int → Int → W)
    (heuristic : Int → Int → W) : Nat → AStarState W → Option (List Int × W × Nat)
  | 0, _ => none
  | fuel + 1, st =>
    if st.openSet.len ≠ 0 then
      match st.openSet.pop with
      | (none, _) => none
      | (some curr, openSet') =>
        let st := { st with openSet := openSet', nodesExpanded := st.nodesExpanded + 1 }
        if curr.id = goal then
          some (rebuildPath st.predecessor goal, curr.gscore, st.nodesExpanded)
        else
          let st := { st with closedSet := st.closedSet.insert curr.id curr }
          aStarLoop goal from_ w heuristic fuel
            ((from_ curr.id).foldl (aStarScan goal w heuristic curr) st)
    else
      some ([], 0, st.nodesExpanded)

/-- `path.AStar`.  The Go function returns `(nil, 0, nodesExpanded)` when
the open set empties; the nil path is the empty list. -/
def aStar (start goal : Int) (from_ : Int → List Int) (w : Int → Int → W)
    (heuristic : Int → Int → W) (fuel : Nat) : Option (List Int × W × Nat) :=
  let init : AStarState W :=
    { closedSet := IntMap.empty,
      openSet := APQ.empty.push { id := start, gscore := 0, fscore := heuristic start goal },
      predecessor := IntMap.empty,
      nodesExpanded := 0 }
  aStarLoop goal from_ w heuristic fuel init

structure DijkstraState (W : Type) where
  openSet : APQ W
  costs : IntMap W
  predecessor : IntMap Int

/-- The neighbor scan of Dijkstra: note the reads go through the `costs`
map, and a node absent from `costs` is inserted unconditionally. -/
def dijkstraScan (w : Int → Int → W) (u : Int) (st : DijkstraState W) (v : Int) :
    DijkstraState W :=
  let tmpCost := st.costs.getD u 0 + w u v
  match st.costs.get? v with
  | none =>
    { openSet := st.openSet.push { id := v, gscore := tmpCost, fscore := tmpCost },
      costs := st.costs.insert v tmpCost,
      predecessor := st.predecessor.insert v u }
  | some weight =>
    if tmpCost < weight then
      { openSet := st.openSet.fix v tmpCost tmpCost,
        costs := st.costs.insert v tmpCost,
        predecessor := st.predecessor.insert v u }
    else st

def dijkstraLoop (from_ : Int → List Int) (w : Int → Int → W) :
    Nat → DijkstraState W → Option (DijkstraState W)
  | 0, _ => none
  | fuel + 1, st =>
    if st.openSet.len ≠ 0 then
      match st.openSet.pop with
      | (none, _) => none
      | (some node, openSet') =>
        let st := { st with openSet := openSet' }
        dijkstraLoop from_ w fuel ((from_ node.id).foldl (dijkstraScan w node.id) st)
    else
      some st

/-- `path.Dijkstra`: source cost 0, then the relaxation loop, then one
reconstructed path per key of the cost map. -/
def dijkstra (source : Int) (from_ : Int → List Int) (w : Int → Int → W)
    (fuel : Nat) : Option (IntMap (List Int) × IntMap W) :=
  let init : DijkstraState W :=
    { openSet := APQ.empty.push { id := source, gscore := 0, fscore := 0 },
      costs := IntMap.empty.insert source 0,
      predecessor := IntMap.empty }
  match dijkstraLoop from_ w fuel init with
  | none => none
  | some st =>
    some (st.costs.keys.foldl (fun m k => m.insert k (rebuildPath st.predecessor k))
      IntMap.empty, st.costs)

end AStarAlgo

/-! ### Termination and expansion bounds for AStar

`Reach next a b` is graph reachability along the successor capability.  The
invariant `AInv` ties the open and closed sets to the finite universe `U`
(closed under successors) and to reachability from the start. -/
section AStarInv

variable {W : Type} [LinearOrder W] [Add W] [Zero W]

def Reach (next : Int → List Int) (a b : Int) : Prop :=
  Relation.ReflTransGen (fun x y => y ∈ next x) a b

structure AInv (U : List Int) (from_ : Int → List Int) (start : Int)
    (st : AStarState W) : Prop where
  pq_wf : PQWF st.openSet
  closed_nodup : (IntMap.keys st.closedSet).Nodup
  open_inv : ∀ id ∈ idsOf st.openSet,
    id ∈ U ∧ Reach from_ start id ∧ st.closedSet.get? id = none
  closed_inv : ∀ p ∈ st.closedSet, p.1 ∈ U ∧ Reach from_ start p.1
  expanded_eq : st.nodesExpanded = st.closedSet.size

end AStarInv

/-! ### The A* optimality counterexample

Four nodes 0 (start), 1, 2, 3 (goal); directed edges 0→1 (weight 3),
0→2 (1), 2→1 (1), 1→3 (100).  The heuristic estimates 3 for node 2 and 0
elsewhere: it is admissible (`astarCexH_admissible`: the only walks to the
goal cost 102, 100 and 101 from 0, 1, 2) but not consistent
(`h(2,3) = 3 > w(2,1) + h(1,3) = 1`). -/
def astarCexFrom : Int → List Int
  | 0 => [1, 2]
  | 1 => [3]
  | 2 => [1]
  | _ => []

def astarCexW : Int → Int → ℤ
  | 0, 1 => 3
  | 0, 2 => 1
  | 2, 1 => 1
  | 1, 3 => 100
  | _, _ => 0

def astarCexH : Int → Int → ℤ
  | 2, 3 => 3
  | _, _ => 0

/-- Total weight of a node sequence read as consecutive edges. -/
def walkCost {W : Type} [Add W] [Zero W] (w : Int → Int → W) : List Int → W
  | [] => 0
  | [_] => 0
  | u :: v :: rest => w u v + walkCost w (v :: rest)

/-- The edge relation of the counterexample graph. -/
def astarCexStep (a b : Int) : Prop := b ∈ astarCexFrom a

instance : DecidableRel astarCexStep := fun a b =>
  inferInstanceAs (Decidable (b ∈ astarCexFrom a))

/-! ## structure.Prim (src/structure/structure.go)

The destination is the `concrete.UndirectedGraph` of
src/concrete/mutablegr.go: a node list (`nodeMap` keys, insertion order)
and a `neighbors` adjacency map.  The source graph enters through its node
enumeration `nodes` (`g.Nodes()`), its edge list `edgeList` (`g.Edges()`,
each undirected edge once in its stored orientation) and the resolved
weight function `w`. -/
structure UGraph (W : Type) where
  nodeList : List Int
  neighbors : IntMap (IntMap W)
deriving DecidableEq

namespace UGraph

def emptyU {W : Type} : UGraph W := { nodeList := [], neighbors := IntMap.empty }

def hasNode {W : Type} (g : UGraph W) (n : Int) : Bool := n ∈ g.nodeList

/-- `AddNode`: record the node and reset its adjacency row (the Go method
overwrites `g.neighbors[n.ID()]` with a fresh map). -/
def addNode {W : Type} (g : UGraph W) (n : Int) : UGraph W :=
  { nodeList := if n ∈ g.nodeList then g.nodeList else g.nodeList ++ [n],
    neighbors := g.neighbors.insert n IntMap.empty }

/-- `AddUndirectedEdge`: add missing endpoints, then write both adjacency
entries. -/
def addUndirectedEdge {W : Type} (g : UGraph W) (u v : Int) (wt : W) : UGraph W :=
  let g := if g.hasNode u then g else g.addNode u
  let g := if g.hasNode v then g else g.addNode v
  let rowU := (g.neighbors.get? u).getD IntMap.empty
  let g : UGraph W :=
    { g with neighbors := g.neighbors.insert u (rowU.insert v wt) }
  let rowV := (g.neighbors.get? v).getD IntMap.empty
  { g with neighbors := g.neighbors.insert v (rowV.insert u wt) }

end UGraph

/-- Stable insertion sort by weight; models `sort.Sort(byWeight(edges))`
(`Less` compares weights strictly; Go's quicksort is unstable, so on ties
the two may order elements differently — no algorithm below depends on the
tie order of this sort). -/
def insertByWeight {W : Type} [LinearOrder W] (a : (Int × Int) × W) :
    List ((Int × Int) × W) → List ((Int × Int) × W)
  | [] => [a]
  | b :: rest => if a.2 < b.2 then a :: b :: rest else b :: insertByWeight a rest

def sortByWeight {W : Type} [LinearOrder W] :
    List ((Int × Int) × W) → List ((Int × Int) × W)
  | [] => []
  | a :: rest => insertByWeight a (sortByWeight rest)

section Prim

variable {W : Type} [LinearOrder W] [Add W] [Zero W]

structure PrimState (W : Type) where
  dst : UGraph W
  remaining : List Int
deriving DecidableEq

inductive PrimStepRes (W : Type) where
  | done (dst : UGraph W)
  | emptyCandidates
  | next (st : PrimState W)
deriving DecidableEq

inductive PrimResult (W : Type) where
  | outOfFuel
  | emptyCandidates
  | done (dst : UGraph W)
deriving DecidableEq

/-- One iteration of Prim's `for remainingNodes.Count() != 0` loop: collect
the edges with one endpoint in `dst` and the other remaining, sort by
weight, take `edges[0]` (`emptyCandidates` stands for the index panic Go
would raise on an empty slice), add it undirected, and remove the id of the
edge's `From()` endpoint from the remaining set. -/
def primStep (edgeList : List (Int × Int)) (w : Int → Int → W) (st : PrimState W) :
    PrimStepRes W :=
  if st.remaining.isEmpty then .done st.dst
  else
    let candidates := (edgeList.filter fun e =>
      (st.dst.hasNode e.1 && decide (e.2 ∈ st.remaining)) ||
      (st.dst.hasNode e.2 && decide (e.1 ∈ st.remaining))).map
        fun e => (e, w e.1 e.2)
    match sortByWeight candidates with
    | [] => .emptyCandidates
    | myEdge :: _ =>
      .next
        { dst := st.dst.addUndirectedEdge myEdge.1.1 myEdge.1.2 myEdge.2,
          remaining := st.remaining.erase myEdge.1.1 }

def primLoop (edgeList : List (Int × Int)) (w : Int → Int → W) :
    Nat → PrimState W → PrimResult W
  | 0, _ => .outOfFuel
  | fuel + 1, st =>
    match primStep edgeList w st with
    | .done dst => .done dst
    | .emptyCandidates => .emptyCandidates
    | .next st' => primLoop edgeList w fuel st'

/-- `structure.Prim`: seed the destination with `nlist[0]`, the rest are
remaining. -/
def prim (nodes : List Int) (edgeList : List (Int × Int)) (w : Int → Int → W)
    (fuel : Nat) : PrimResult W :=
  match nodes with
  | [] => .done UGraph.emptyU
  | n0 :: rest =>
    primLoop edgeList w fuel
      { dst := UGraph.emptyU.addNode n0, remaining := rest }

end Prim

/-! ## path/dynamic (src/path/dynamic/dstarlite.go)

Weights are `float64` where `math.Inf(1)` is a first-class sentinel; `Ext W`
adjoins that infinity to the finite domain `W`.  The operations mirror IEEE
semantics on the values that occur (no NaN can arise: the code never forms
`∞ - ∞` or `0·∞`). -/
section DStarLite

variable {W : Type} [LinearOrder W] [Add W] [Zero W]

inductive Ext (W : Type) where
  | fin (w : W)
  | inf
deriving DecidableEq

namespace Ext

/-- Strict `<` on float64 with `+∞`: `∞ < x` is false, `x < ∞` is true for
finite x. -/
def lt : Ext W → Ext W → Bool
  | fin a, fin b => decide (a < b)
  | fin _, inf => true
  | inf, _ => false

/-- Non-strict `<=` on float64 with `+∞` (`∞ <= ∞` is true). -/
def le : Ext W → Ext W → Bool
  | fin a, fin b => decide (a ≤ b)
  | fin _, inf => true
  | inf, fin _ => false
  | inf, inf => true

def add : Ext W → Ext W → Ext W
  | fin a, fin b => fin (a + b)
  | _, inf => inf
  | inf, _ => inf

/-- `math.Min`. -/
def minE : Ext W → Ext W → Ext W
  | inf, b => b
  | a, inf => a
  | fin a, fin b => fin (min a b)

/-- `math.IsInf(x, 1)`. -/
def isInf : Ext W → Bool
  | inf => true
  | fin _ => false

end Ext

/-- A D* Lite priority queue key, `key [2]float64`. -/
abbrev DKey (W : Type) := Ext W × Ext W

/-- `key.less`: strict lexicographic order
`k[0] < other[0] || (k[0] == other[0] && k[1] < other[1])`. -/
def keyLess (k other : DKey W) : Bool :=
  k.1.lt other.1 || (k.1 == other.1 && k.2.lt other.2)

/-- The mutable fields of a `dStarLiteNode` (the struct behind the
`*dStarLiteNode` pointer); the embedded `graph.Node` is the id keying the
store.  A freshly allocated node has the zero key `[2]float64{0, 0}`. -/
structure DNode (W : Type) where
  key : DKey W
  rhs : Ext W
  g : Ext W
deriving DecidableEq

/-- The Go dynamic type of a node value stored in the world graph.
`NewDStarLite` only ever stores `*dStarLiteNode` wrappers. -/
inductive GoDyn where
  | ptrDSL
  | valDSL
  | otherNode
deriving DecidableEq

/-- `dStarLiteQueue`: a slice of `*dStarLiteNode` (ids into the store) plus
the position map.  The node fields live in the planner's store; `Less`
reads the stored keys through the pointers. -/
structure DQueue where
  indexOf : IntMap Nat
  ids : List Int
deriving DecidableEq

namespace DQueue

def emptyQ : DQueue := { indexOf := IntMap.empty, ids := [] }

def lenQ (q : DQueue) : Nat := q.ids.length

def lessQ (lt : Int → Int → Bool) (q : DQueue) (i j : Nat) : Bool :=
  match q.ids.get? i, q.ids.get? j with
  | some a, some b => lt a b
  | _, _ => false

def swapQ (q : DQueue) (i j : Nat) : DQueue :=
  match q.ids.get? i, q.ids.get? j with
  | some a, some b =>
    { indexOf := (q.indexOf.insert a j).insert b i,
      ids := (q.ids.set i b).set j a }
  | _, _ => q

/-- `container/heap.up` (fuel `j + 1` is always sufficient). -/
def upQ (lt : Int → Int → Bool) : Nat → DQueue → Nat → DQueue
  | 0, q, _ => q
  | fuel + 1, q, j =>
    let i := (j - 1) / 2
    if i = j ∨ ¬ lessQ lt q j i then q
    else upQ lt fuel (swapQ q i j) i

/-- `container/heap.down` (fuel `n` is always sufficient); returns the
final sift index. -/
def downQ (lt : Int → Int → Bool) : Nat → DQueue → Nat → Nat → DQueue × Nat
  | 0, q, i, _ => (q, i)
  | fuel + 1, q, i, n =>
    let j1 := 2 * i + 1
    if n ≤ j1 then (q, i)
    else
      let j := if j1 + 1 < n ∧ lessQ lt q (j1 + 1) j1 then j1 + 1 else j1
      if ¬ lessQ lt q j i then (q, i)
      else downQ lt fuel (swapQ q i j) j n

/-- `heap.Push` composed with `dStarLiteQueue.Push`. -/
def pushQ (lt : Int → Int → Bool) (q : DQueue) (uid : Int) : DQueue :=
  let q1 : DQueue := { indexOf := q.indexOf.insert uid q.ids.length,
                       ids := q.ids ++ [uid] }
  upQ lt (q1.ids.length - 1 + 1) q1 (q1.ids.length - 1)

/-- `heap.Pop` composed with `dStarLiteQueue.Pop`. -/
def popQ (lt : Int → Int → Bool) (q : DQueue) : Option Int × DQueue :=
  let n := q.ids.length - 1
  let q1 := swapQ q 0 n
  let q2 := (downQ lt n q1 0 n).1
  match q2.ids.getLast? with
  | none => (none, q2)
  | some x => (some x, { indexOf := q2.indexOf.erase x, ids := q2.ids.dropLast })

/-- `heap.Remove(i)`. -/
def removeAtQ (lt : Int → Int → Bool) (q : DQueue) (i : Nat) : Option Int × DQueue :=
  let n := q.ids.length - 1
  if n ≠ i then
    let q1 := swapQ q i n
    let r := downQ lt n q1 i n
    let q2 := if i < r.2 then r.1 else upQ lt (i + 1) r.1 i
    match q2.ids.getLast? with
    | none => (none, q2)
    | some x => (some x, { indexOf := q2.indexOf.erase x, ids := q2.ids.dropLast })
  else
    match q.ids.getLast? with
    | none => (none, q)
    | some x => (some x, { indexOf := q.indexOf.erase x, ids := q.ids.dropLast })

def hasQ (q : DQueue) (id : Int) : Bool := (q.indexOf.get? id).isSome

/-- `dStarLiteQueue.top`. -/
def topQ (q : DQueue) : Option Int := q.ids.get? 0

end DQueue

/-- The DStarLite planner state.  `store` holds the fields of every
`*dStarLiteNode` allocated by the planner, keyed by node id (Go aliases the
pointers between the world graph and the queue; ids are unique, so id
indirection is an exact model).  `worldNodes` records, per world node id,
the Go dynamic type of the stored node value, in insertion order;
`worldEdges` is the world's directed edge list with its stored weights.
The resolved weight and heuristic functions (`d.weight`, `d.heuristic`) are
passed to each operation rather than stored. -/
structure DState (W : Type) where
  sId : Int
  tId : Int
  lastId : Int
  k_m : W
  store : IntMap (DNode W)
  worldNodes : IntMap GoDyn
  worldEdges : List ((Int × Int) × Ext W)
  queue : DQueue
deriving DecidableEq

namespace DState

/-- Dereference a node pointer.  Go would nil-pointer-panic on an id
outside the store; the planner only ever reads ids stored at
construction (the default is never taken in any run below). -/
def getN (st : DState W) (id : Int) : DNode W :=
  (st.store.get? id).getD
    { key := (Ext.fin 0, Ext.fin 0), rhs := Ext.fin 0, g := Ext.fin 0 }

def setKey (st : DState W) (id : Int) (k : DKey W) : DState W :=
  { st with store := st.store.insert id { st.getN id with key := k } }

def setRhs (st : DState W) (id : Int) (r : Ext W) : DState W :=
  { st with store := st.store.insert id { st.getN id with rhs := r } }

def setG (st : DState W) (id : Int) (x : Ext W) : DState W :=
  { st with store := st.store.insert id { st.getN id with g := x } }

/-- `d.world.From(u)`: heads of the stored out-edges, in edge insertion
order. -/
def worldFrom (st : DState W) (u : Int) : List Int :=
  (st.worldEdges.filter fun e => e.1.1 = u).map fun e => e.1.2

/-- `d.world.To(u)`: tails of the stored in-edges, in edge insertion
order. -/
def worldTo (st : DState W) (u : Int) : List Int :=
  (st.worldEdges.filter fun e => e.1.2 = u).map fun e => e.1.1

/-- `d.world.SetEdge`: overwrite the stored weight, or append the edge. -/
def setEdge (st : DState W) (u v : Int) (wt : Ext W) : DState W :=
  { st with worldEdges :=
      if st.worldEdges.any fun e => e.1 = (u, v) then
        st.worldEdges.map fun e => if e.1 = (u, v) then (e.1, wt) else e
      else st.worldEdges ++ [((u, v), wt)] }

/-- The `Less` closure of the planner's queue: compare the stored keys of
the two node pointers. -/
def ltOf (store : IntMap (DNode W)) : Int → Int → Bool := fun a b =>
  keyLess (((store.get? a).getD
      { key := (Ext.fin 0, Ext.fin 0), rhs := Ext.fin 0, g := Ext.fin 0 }).key)
    (((store.get? b).getD
      { key := (Ext.fin 0, Ext.fin 0), rhs := Ext.fin 0, g := Ext.fin 0 }).key)

/-- `dStarLiteQueue.insert(u, k)`: the body is just `heap.Push(q, u)` — the
key argument `k` is never written to the node. -/
def qInsert (st : DState W) (uid : Int) (k : DKey W) : DState W :=
  let _ := k
  { st with queue := DQueue.pushQ (ltOf st.store) st.queue uid }

/-- `dStarLiteQueue.update(id, k)`: write the key through the stored
pointer, then `heap.Fix`. -/
def qUpdate (st : DState W) (id : Int) (k : DKey W) : DState W :=
  match st.queue.indexOf.get? id with
  | none => st
  | some i =>
    let st := st.setKey id k
    let lt := ltOf st.store
    let n := st.queue.lenQ
    let r := DQueue.downQ lt n st.queue i n
    let q' := if i < r.2 then r.1 else DQueue.upQ lt (i + 1) r.1 i
    { st with queue := q' }

/-- `dStarLiteQueue.remove(id)`. -/
def qRemove (st : DState W) (id : Int) : DState W :=
  match st.queue.indexOf.get? id with
  | none => st
  | some i =>
    { st with queue := (DQueue.removeAtQ (ltOf st.store) st.queue i).2 }

/-- `DStarLite.keyFor` (CalculateKey):
`[min(g, rhs) + h(s, v) + k_m; min(g, rhs)]`. -/
def keyFor (st : DState W) (h : Int → Int → W) (v : Int) : DKey W :=
  let n := st.getN v
  let k1 := Ext.minE n.g n.rhs
  ((k1.add (Ext.fin (h st.sId v))).add (Ext.fin st.k_m), k1)

/-- `DStarLite.update` (UpdateVertex). -/
def updateVertex (h : Int → Int → W) (st : DState W) (uid : Int) : DState W :=
  let u := st.getN uid
  let inQueue := st.queue.hasQ uid
  if inQueue ∧ u.g ≠ u.rhs then st.qUpdate uid (st.keyFor h uid)
  else if ¬ inQueue ∧ u.g ≠ u.rhs then st.qInsert uid (st.keyFor h uid)
  else if inQueue ∧ u.g = u.rhs then st.qRemove uid
  else st

/-- The Go runtime message for a failing value-type assertion
`x.(dStarLiteNode)` on a stored `*dStarLiteNode`. -/
def valAssertMsg : String :=
  "interface conversion: graph.Node is *dynamic.dStarLiteNode, not dynamic.dStarLiteNode"

/-- Read `x.(dStarLiteNode).g` for a node value obtained from the world:
every stored value is a `*dStarLiteNode`, for which this value-type
assertion panics. -/
def valAssertG (st : DState W) (id : Int) : Except String (Ext W) :=
  match st.worldNodes.get? id with
  | some .valDSL => .ok (st.getN id).g
  | _ => .error valAssertMsg

/-- Read `x.(*dStarLiteNode)` for a node value obtained from the world. -/
def ptrAssert (st : DState W) (id : Int) : Except String Int :=
  match st.worldNodes.get? id with
  | some .ptrDSL => .ok id
  | _ => .error "interface conversion: graph.Node is not *dynamic.dStarLiteNode"

/-- One predecessor step of the overconsistent case of
ComputeShortestPath: `s := _s.(*dStarLiteNode)`, the rhs min-update for
non-goal nodes, then UpdateVertex. -/
def overconsistentPred (h : Int → Int → W) (wIn : Int → Int → Ext W) (uid : Int)
    (st : DState W) (sid : Int) : Except String (DState W) := do
  let sid ← st.ptrAssert sid
  let st :=
    if sid ≠ st.tId then
      st.setRhs sid (Ext.minE (st.getN sid).rhs ((wIn sid uid).add (st.getN uid).g))
    else st
  .ok (updateVertex h st sid)

/-- One node step of the underconsistent case: if `s.rhs = c(s,u) + gOld`
then (unless s is the goal) recompute `rhs(s)` over the successors of `s`
— each successor is read through the value-type assertion
`t.(dStarLiteNode)`, which panics on the stored pointers — then
UpdateVertex. -/
def underconsistentPred (h : Int → Int → W) (wIn : Int → Int → Ext W) (uid : Int)
    (gOld : Ext W) (st : DState W) (sid : Int) : Except String (DState W) := do
  let sid ← st.ptrAssert sid
  let st ←
    if (st.getN sid).rhs = (wIn sid uid).add gOld then
      if sid ≠ st.tId then do
        let st := st.setRhs sid Ext.inf
        (st.worldFrom sid).foldlM (fun st tid => do
          let tg ← st.valAssertG tid
          .ok (st.setRhs sid (Ext.minE (st.getN sid).rhs ((wIn sid tid).add tg)))) st
      else .ok st
    else .ok st
  .ok (updateVertex h st sid)

/-- `DStarLite.findShortestPath` (ComputeShortestPath), fuel-indexed.
`none` is exhausted fuel, `Except.error` a Go panic. -/
def findShortestPath (h : Int → Int → W) (wIn : Int → Int → Ext W) :
    Nat → DState W → Option (Except String (DState W))
  | 0, _ => none
  | fuel + 1, st =>
    if st.queue.lenQ ≠ 0 then
      match st.queue.topQ with
      | none => none
      | some uid =>
        let uN := st.getN uid
        if ¬ (keyLess uN.key (st.keyFor h st.sId) = true) ∧
            Ext.le (st.getN st.sId).rhs (st.getN st.sId).g = true then
          some (.ok st)
        else
          let kNew := st.keyFor h uid
          if keyLess uN.key kNew then
            findShortestPath h wIn fuel (st.qUpdate uid kNew)
          else if Ext.lt uN.rhs uN.g then
            let st := st.setG uid uN.rhs
            let st := st.qRemove uid
            match (st.worldTo uid).foldlM (overconsistentPred h wIn uid) st with
            | .ok st' => findShortestPath h wIn fuel st'
            | .error e => some (.error e)
          else
            let gOld := uN.g
            let st := st.setG uid Ext.inf
            match (st.worldTo uid ++ [uid]).foldlM
                (underconsistentPred h wIn uid gOld) st with
            | .ok st' => findShortestPath h wIn fuel st'
            | .error e => some (.error e)
    else some (.ok st)

end DState

/-- `NewDStarLite`.  `s`, `t` are the endpoint ids, `gNodes`/`gFrom`/`wIn`
the input graph's node enumeration, successor capability and resolved
weight capability (`d.weight`; absent edges weigh `+∞`), `hArg` the
heuristic argument (nil modelled as `none`) and `gHeur` the graph's
optional `path.HeuristicCoster` capability.  The resolved `d.heuristic`
falls back from the argument to the graph capability to the null
heuristic, but the queue-seeding line calls the raw argument `h`:
`d.queue.insert(d.t, key{h(s, t), 0})` — a nil-function-call panic when
the argument is nil. -/
def newDStarLite (s t : Int) (gNodes : List Int) (gFrom : Int → List Int)
    (wIn : Int → Int → Ext W) (hArg : Option (Int → Int → W))
    (gHeur : Option (Int → Int → W)) (fuel : Nat) :
    Option (Except String (DState W)) :=
  let heuristic := hArg.getD (gHeur.getD fun _ _ => 0)
  match hArg with
  | none =>
    some (.error "runtime error: invalid memory address or nil pointer dereference")
  | some hf =>
    let _seedKey : DKey W := (Ext.fin (hf s t), Ext.fin 0)
    let st0 : DState W :=
      { sId := s, tId := t, lastId := s, k_m := 0,
        store := (IntMap.empty.insert s
            { key := (Ext.fin 0, Ext.fin 0), rhs := Ext.inf, g := Ext.inf }).insert t
            { key := (Ext.fin 0, Ext.fin 0), rhs := Ext.fin 0, g := Ext.inf },
        worldNodes := IntMap.empty,
        worldEdges := [],
        queue := DQueue.emptyQ }
    let st0 := st0.qInsert t _seedKey
    let st0 := gNodes.foldl (fun st n =>
      { st with
        worldNodes := st.worldNodes.insert n GoDyn.ptrDSL,
        store :=
          if n = s ∨ n = t then st.store
          else st.store.insert n
            { key := (Ext.fin 0, Ext.fin 0), rhs := Ext.inf, g := Ext.inf } }) st0
    match st0.worldNodes.keys.foldlM (fun st u =>
        (gFrom u).foldlM (fun (st : DState W) v =>
          let w := wIn u v
          if w.lt (Ext.fin 0) then .error "D* Lite: negative edge weight"
          else (.ok (st.setEdge u v w) : Except String (DState W))) st) st0 with
    | .error e => some (.error e)
    | .ok st1 => DState.findShortestPath heuristic wIn fuel st1

/-- `DStarLite.worldNodeFor`: a stored `*dStarLiteNode` is returned; a
plain node value trips the guarding panic; an id absent from the world
yields a fresh wrapper (modelled by storing a fresh record under that
id). -/
def worldNodeFor (st : DState W) (id : Int) : Except String (Int × DState W) :=
  match st.worldNodes.get? id with
  | some .ptrDSL => .ok (id, st)
  | some _ => .error "D* Lite: illegal world node type"
  | none =>
    .ok (id, { st with
                store := st.store.insert id
                  ({ key := (Ext.fin 0, Ext.fin 0), rhs := Ext.inf,
                     g := Ext.inf } : DNode W) })

/-- One changed edge of `UpdateWorld`: negative-cost check, `c_old` read
through `d.weight` (the input graph's weight capability), the world edge
overwrite, the rhs reconciliation — whose recompute loop reads successors
through the failing value-type assertion — and UpdateVertex on the
tail. -/
def updateWorldChange (h : Int → Int → W) (wIn : Int → Int → Ext W)
    (st : DState W) (chg : (Int × Int) × W) : Except String (DState W) := do
  let cost := chg.2
  if cost < 0 then .error "D* Lite: negative edge weight"
  else
    let cOld := wIn chg.1.1 chg.1.2
    let (u, st) ← worldNodeFor st chg.1.1
    let (v, st) ← worldNodeFor st chg.1.2
    let st := st.setEdge u v (Ext.fin cost)
    let st ←
      if Ext.lt (Ext.fin cost) cOld then
        .ok (if u ≠ st.tId then
          st.setRhs u (Ext.minE (st.getN u).rhs ((Ext.fin cost).add (st.getN v).g))
        else st)
      else if (st.getN u).rhs = cOld.add (st.getN v).g then
        if u ≠ st.tId then do
          let st := st.setRhs u Ext.inf
          (st.worldFrom u).foldlM (fun st tid => do
            let tg ← st.valAssertG tid
            .ok (st.setRhs u (Ext.minE (st.getN u).rhs ((wIn u tid).add tg)))) st
        else .ok st
      else .ok st
    .ok (DState.updateVertex h st u)

/-- `DStarLite.UpdateWorld`. -/
def updateWorld (h : Int → Int → W) (wIn : Int → Int → Ext W) (st : DState W)
    (changes : List ((Int × Int) × W)) (fuel : Nat) :
    Option (Except String (DState W)) :=
  if changes.isEmpty then some (.ok st)
  else
    let st := { st with k_m := st.k_m + h st.lastId st.sId, lastId := st.sId }
    match changes.foldlM (updateWorldChange h wIn) st with
    | .error e => some (.error e)
    | .ok st' => DState.findShortestPath h wIn fuel st'

end DStarLite

/-! ### Concrete D* Lite instances -/
/-- Input graph for the D* Lite runs: nodes 1 (start) and 2 (goal), one
directed edge 1 → 2 of weight 1. -/
def dslFrom : Int → List Int
  | 1 => [2]
  | _ => []

/-- The input graph's resolved weight capability (absent edges `+∞`). -/
def dslWIn : Int → Int → Ext ℤ
  | 1, 2 => .fin 1
  | _, _ => .inf

/-- A store holding one freshly allocated `dStarLiteNode` (id 7): its key
field is the Go zero value `[2]float64{0, 0}`. -/
def c4State : DState ℤ :=
  { sId := 0, tId := 0, lastId := 0, k_m := 0,
    store := [(7, { key := (Ext.fin 0, Ext.fin 0), rhs := Ext.fin 0, g := Ext.inf })],
    worldNodes := [], worldEdges := [], queue := DQueue.emptyQ }

/-- The planner state NewDStarLite builds for `dslFrom`/`dslWIn` with the
null heuristic (computed by the construction run in
`updateWorld_value_type_assertion_panics`). -/
def c10Constructed : DState ℤ :=
  { sId := 1, tId := 2, lastId := 1, k_m := 0,
    store := [(1, { key := (Ext.fin 1, Ext.fin 1), rhs := Ext.fin 1, g := Ext.inf }),
              (2, { key := (Ext.fin 0, Ext.fin 0), rhs := Ext.fin 0, g := Ext.fin 0 })],
    worldNodes := [(1, GoDyn.ptrDSL), (2, GoDyn.ptrDSL)],
    worldEdges := [((1, 2), Ext.fin 1)],
    queue := { indexOf := [(1, 0)], ids := [1] } }

/-! ## structure.TarjanSCC (src/structure/structure.go)

`indexTable` and `lowLink` are `map[int]int` read through Go's zero value
(0 means unvisited: `t.index++` happens before the first store, so real
indices start at 1); `onStack` is an `internal.IntSet`; `stack` a slice
appended at the right end; `sccs` the output accumulator.  The recursion
of `strongconnect` is fuelled. -/
section Tarjan

structure TState : Type where
  index : Int
  indexTable : IntMap Int
  lowLink : IntMap Int
  onStack : List Int
  stack : List Int
  sccs : List (List Int)
deriving DecidableEq

def tarjanInit : TState := TState.mk 0 IntMap.empty IntMap.empty [] [] []

/-- The `for { w, t.stack = ...; t.onStack.Remove(w); scc = append(scc, w);
if w.ID() == vID break }` pop loop, acting on the reversed stack (the Go
code pops from the right end).  Popping an empty stack is a Go
index-out-of-range panic, modelled as `none`. -/
def popLoop (v : Int) : List Int → List Int → List Int →
    Option (List Int × List Int × List Int)
  | [], _, _ => none
  | w :: rest, os, scc =>
    if w = v then some (rest, os.erase w, scc ++ [w])
    else popLoop v rest (os.erase w) (scc ++ [w])

/-- `t.lowLink[v] = x`. -/
def setLowT (t : TState) (v : Int) (x : Int) : TState :=
  TState.mk t.index t.indexTable (t.lowLink.insert v x) t.onStack t.stack t.sccs

/-- The `for _, w := range t.succ(v)` loop of `strongconnect`; `sc` is the
recursive call at the remaining fuel. -/
def succLoop (sc : Int → TState → Option TState) (v : Int) :
    List Int → TState → Option TState
  | [], t => some t
  | w :: ws, t =>
    if t.indexTable.getD w 0 = 0 then
      match sc w t with
      | none => none
      | some t' =>
        succLoop sc v ws
          (setLowT t' v (min (t'.lowLink.getD v 0) (t'.lowLink.getD w 0)))
    else if w ∈ t.onStack then
      succLoop sc v ws
        (setLowT t v (min (t.lowLink.getD v 0) (t.indexTable.getD w 0)))
    else
      succLoop sc v ws t

/-- Entry of `strongconnect`: `t.index++; t.indexTable[vID] = t.index;
t.lowLink[vID] = t.index; t.stack = append(t.stack, v); t.onStack.Add(vID)`. -/
def pushT (t : TState) (v : Int) : TState :=
  TState.mk (t.index + 1)
    (t.indexTable.insert v (t.index + 1))
    (t.lowLink.insert v (t.index + 1))
    (if v ∈ t.onStack then t.onStack else v :: t.onStack)
    (t.stack ++ [v]) t.sccs

def strongconnect (succ : Int → List Int) : Nat → Int → TState → Option TState
  | 0, _, _ => none
  | fuel + 1, v, t0 =>
    match succLoop (strongconnect succ fuel) v (succ v) (pushT t0 v) with
    | none => none
    | some t2 =>
      if t2.lowLink.getD v 0 = t2.indexTable.getD v 0 then
        match popLoop v t2.stack.reverse t2.onStack [] with
        | none => none
        | some (restRev, os, scc) =>
          some (TState.mk t2.index t2.indexTable t2.lowLink os restRev.reverse
            (t2.sccs ++ [scc]))
      else some t2

/-- The driver loop of `TarjanSCC`: `for _, v := range nodes { if
t.indexTable[v.ID()] == 0 { t.strongconnect(v) } }`. -/
def tarjanRun (succ : Int → List Int) (fuel : Nat) :
    List Int → TState → Option TState
  | [], t => some t
  | v :: vs, t =>
    if t.indexTable.getD v 0 = 0 then
      match strongconnect succ fuel v t with
      | none => none
      | some t' => tarjanRun succ fuel vs t'
    else tarjanRun succ fuel vs t

def tarjanSCC (succ : Int → List Int) (nodes : List Int) (fuel : Nat) :
    Option (List (List Int)) :=
  (tarjanRun succ fuel nodes tarjanInit).map TState.sccs

/-- `t.indexTable[x] != 0`: x has been visited (indices start at 1). -/
def vis (t : TState) (x : Int) : Prop := t.indexTable.getD x 0 ≠ 0

/-- The Go read `t.indexTable[x]` (0 when absent). -/
def idxT (t : TState) (x : Int) : Int := t.indexTable.getD x 0

/-- The Go read `t.lowLink[x]` (0 when absent). -/
def lowT (t : TState) (x : Int) : Int := t.lowLink.getD x 0

/-- x belongs to an already-emitted component. -/
def emittedT (t : TState) (x : Int) : Prop := ∃ c ∈ t.sccs, x ∈ c

/-- Number of unvisited nodes of `U` (the fuel measure). -/
def unvisCount (U : List Int) (t : TState) : Nat :=
  (U.filter fun x => decide (t.indexTable.getD x 0 = 0)).length

/-- Soundness of the lowlink values of completed open nodes: every
successor of an open node outside the active call chain `A` is visited,
and is either already emitted or bounds the node's lowlink by its index. -/
def csInv (succ : Int → List Int) (A : List Int) (t : TState) : Prop :=
  ∀ u ∈ t.stack, u ∉ A → ∀ w ∈ succ u,
    vis t w ∧ (emittedT t w ∨ lowT t u ≤ idxT t w)

/-- The state invariant of the tarjan traversal. -/
structure TInv (U : List Int) (succ : Int → List Int) (t : TState) : Prop where
  stack_nodup : t.stack.Nodup
  stack_vis : ∀ x ∈ t.stack, vis t x
  vis_mem : ∀ x, vis t x → x ∈ U
  vis_cover : ∀ x, vis t x → x ∈ t.stack ∨ emittedT t x
  stack_unemitted : ∀ x ∈ t.stack, ¬ emittedT t x
  emitted_vis : ∀ x, emittedT t x → vis t x
  index_nonneg : 0 ≤ t.index
  idx_bound : ∀ x, vis t x → 1 ≤ idxT t x ∧ idxT t x ≤ t.index
  low_le : ∀ x ∈ t.stack, lowT t x ≤ idxT t x
  low_open : ∀ x ∈ t.stack, ∃ y ∈ t.stack, lowT t x = idxT t y
  onStack_iff : ∀ x, x ∈ t.onStack ↔ x ∈ t.stack
  onStack_nodup : t.onStack.Nodup
  sccs_nodup : ∀ c ∈ t.sccs, c.Nodup
  sccs_disj : ∀ i j ci cj x, t.sccs.get? i = some ci → t.sccs.get? j = some cj →
    x ∈ ci → x ∈ cj → i = j
  sccs_closed : ∀ i ci, t.sccs.get? i = some ci → ∀ x ∈ ci, ∀ w ∈ succ x,
    ∃ j cj, j ≤ i ∧ t.sccs.get? j = some cj ∧ w ∈ cj

/-- The invariant of the successor loop of `strongconnect v`, relating the
running state `t` to the state `t0` at the call's entry. -/
structure LInv (U : List Int) (succ : Int → List Int) (A : List Int) (v : Int)
    (t0 t : TState) : Prop where
  inv : TInv U succ t
  cs : csInv succ (v :: A) t
  activeA : ∀ a ∈ A, vis t a
  vis_v : vis t v
  pres : ∀ x, vis t0 x → vis t x ∧ idxT t x = idxT t0 x ∧ lowT t x = lowT t0 x
  idx_lt : t0.index < t.index
  fresh : ∀ x, vis t x → ¬ vis t0 x → t0.index < idxT t x
  sccs_ext : ∃ ns, t.sccs = t0.sccs ++ ns
  stack_ext : ∃ T, t.stack = t0.stack ++ v :: T ∧
    (∀ x ∈ T, ¬ vis t0 x ∧ x ≠ v) ∧ (∀ x ∈ T, lowT t v ≤ lowT t x)
  idx_v : idxT t v = t0.index + 1
  nv0 : ¬ vis t0 v
  svis0 : ∀ x ∈ t0.stack, vis t0 x
  idx0_le : ∀ x, vis t0 x → idxT t0 x ≤ t0.index
  activeA0 : ∀ a ∈ A, vis t0 a

/-- The postcondition of `strongconnect v t`. -/
structure SPost (U : List Int) (succ : Int → List Int) (A : List Int) (v : Int)
    (t t' : TState) : Prop where
  inv : TInv U succ t'
  cs : csInv succ A t'
  vis_v : vis t' v
  pres : ∀ x, vis t x → vis t' x ∧ idxT t' x = idxT t x ∧ lowT t' x = lowT t x
  idx_le : t.index ≤ t'.index
  fresh : ∀ x, vis t' x → ¬ vis t x → t.index < idxT t' x
  idx_v : idxT t' v = t.index + 1
  sccs_ext : ∃ ns, t'.sccs = t.sccs ++ ns
  split : (t'.stack = t.stack ∧ emittedT t' v ∧ lowT t' v = idxT t' v) ∨
    (∃ S, t'.stack = t.stack ++ S ∧ v ∈ S ∧ (∀ x ∈ S, ¬ vis t x) ∧
      (∀ x ∈ S, lowT t' v ≤ lowT t' x) ∧ lowT t' v ≠ idxT t' v)

end Tarjan

/-! ## Theorems -/

namespace IntMap

end IntMap

namespace IntMap

variable {α : Type}

theorem keys_cons (p : Int × α) (m : IntMap α) : keys (p :: m) = p.1 :: keys m := rfl

theorem get?_insert_self (m : IntMap α) (k : Int) (v : α) :
    (m.insert k v).get? k = some v := by
  induction m with
  | nil => simp [insert, get?]
  | cons p m ih =>
    obtain ⟨pk, pv⟩ := p
    by_cases h : k = pk
    · simp [insert, get?, h]
    · simp [insert, get?, h, ih]

theorem get?_insert_ne (m : IntMap α) {k k' : Int} (v : α) (h : k' ≠ k) :
    (m.insert k v).get? k' = m.get? k' := by
  induction m with
  | nil => simp [insert, get?, h]
  | cons p m ih =>
    obtain ⟨pk, pv⟩ := p
    by_cases hk : k = pk
    · subst hk
      simp [insert, get?, h]
    · by_cases hk' : k' = pk
      · simp [insert, get?, hk, hk']
      · simp [insert, get?, hk, hk', ih]

theorem insert_eq_self {m : IntMap α} {k : Int} {v : α} (h : m.get? k = some v) :
    m.insert k v = m := by
  induction m with
  | nil => simp [get?] at h
  | cons p m ih =>
    obtain ⟨pk, pv⟩ := p
    by_cases hk : k = pk
    · subst hk
      simp [get?] at h
      simp [insert, h]
    · simp [get?, hk] at h
      simp [insert, hk, ih h]

theorem mem_keys_of_get? {m : IntMap α} {k : Int} {v : α} (h : m.get? k = some v) :
    k ∈ m.keys := by
  induction m with
  | nil => simp [get?] at h
  | cons p m ih =>
    obtain ⟨pk, pv⟩ := p
    by_cases hk : k = pk
    · simp [keys_cons, hk]
    · simp [get?, hk] at h
      simp [keys_cons]
      exact Or.inr (ih h)

theorem get?_eq_none_of_notMem {m : IntMap α} {k : Int} (h : k ∉ m.keys) :
    m.get? k = none := by
  induction m with
  | nil => rfl
  | cons p m ih =>
    obtain ⟨pk, pv⟩ := p
    rw [keys_cons] at h
    simp only [List.mem_cons, not_or] at h
    simp [get?, h.1, ih h.2]

theorem get?_isSome_iff_mem_keys (m : IntMap α) (k : Int) :
    (m.get? k).isSome = true ↔ k ∈ m.keys := by
  induction m with
  | nil => simp [get?, keys]
  | cons p m ih =>
    obtain ⟨pk, pv⟩ := p
    by_cases hk : k = pk
    · simp [get?, hk, keys_cons]
    · simp [get?, hk, keys_cons, ih]

theorem keys_insert (m : IntMap α) (k : Int) (v : α) :
    keys (m.insert k v) = if k ∈ keys m then keys m else keys m ++ [k] := by
  induction m with
  | nil => simp [insert, keys]
  | cons p m ih =>
    obtain ⟨pk, pv⟩ := p
    by_cases hk : k = pk
    · simp [insert, hk, keys_cons]
    · by_cases hmem : k ∈ keys m
      · simp [insert, hk, keys_cons, ih, hmem, hk]
      · simp [insert, hk, keys_cons, ih, hmem, hk]

theorem keys_insert_subset (m : IntMap α) (k : Int) (v : α) :
    ∀ x ∈ keys (m.insert k v), x ∈ keys m ∨ x = k := by
  intro x hx
  rw [keys_insert] at hx
  by_cases hmem : k ∈ keys m
  · rw [if_pos hmem] at hx
    exact Or.inl hx
  · rw [if_neg hmem] at hx
    rcases List.mem_append.mp hx with h | h
    · exact Or.inl h
    · simp at h
      exact Or.inr h

theorem keys_insert_nodup {m : IntMap α} (k : Int) (v : α) (h : m.keys.Nodup) :
    (m.insert k v).keys.Nodup := by
  rw [keys_insert]
  by_cases hmem : k ∈ keys m
  · rwa [if_pos hmem]
  · rw [if_neg hmem]
    simp [List.nodup_append, h, hmem]

theorem mem_of_mem_insert {m : IntMap α} {k : Int} {v : α} {p : Int × α}
    (h : p ∈ m.insert k v) : p ∈ m ∨ p = (k, v) := by
  induction m with
  | nil => simpa [insert] using h
  | cons q m ih =>
    obtain ⟨qk, qv⟩ := q
    by_cases hk : k = qk
    · rw [insert] at h
      simp only [if_pos hk] at h
      rcases List.mem_cons.mp h with h | h
      · exact Or.inr (by simp [h, hk])
      · exact Or.inl (List.mem_cons.mpr (Or.inr h))
    · rw [insert] at h
      simp only [if_neg hk] at h
      rcases List.mem_cons.mp h with h | h
      · exact Or.inl (List.mem_cons.mpr (Or.inl h))
      · rcases ih h with h' | h'
        · exact Or.inl (List.mem_cons.mpr (Or.inr h'))
        · exact Or.inr h'

theorem get?_erase_ne (m : IntMap α) {k k' : Int} (h : k' ≠ k) :
    (m.erase k).get? k' = m.get? k' := by
  induction m with
  | nil => rfl
  | cons p m ih =>
    obtain ⟨pk, pv⟩ := p
    by_cases hk : k = pk
    · subst hk
      simp [erase, get?, h]
    · by_cases hk' : k' = pk
      · simp [erase, get?, hk, hk']
      · simp [erase, get?, hk, hk', ih]

theorem keys_erase_subset (m : IntMap α) (k : Int) :
    ∀ x ∈ (m.erase k).keys, x ∈ m.keys := by
  induction m with
  | nil => simp [erase]
  | cons p m ih =>
    obtain ⟨pk, pv⟩ := p
    intro x hx
    by_cases hk : k = pk
    · rw [erase] at hx
      simp only [if_pos hk] at hx
      rw [keys_cons]
      exact List.mem_cons.mpr (Or.inr hx)
    · rw [erase] at hx
      simp only [if_neg hk] at hx
      rw [keys_cons] at hx ⊢
      rcases List.mem_cons.mp hx with h | h
      · exact List.mem_cons.mpr (Or.inl h)
      · exact List.mem_cons.mpr (Or.inr (ih x h))

theorem keys_erase_nodup {m : IntMap α} (k : Int) (h : m.keys.Nodup) :
    (m.erase k).keys.Nodup := by
  induction m with
  | nil => simp [erase, keys]
  | cons p m ih =>
    obtain ⟨pk, pv⟩ := p
    rw [keys_cons, List.nodup_cons] at h
    by_cases hk : k = pk
    · rw [erase]
      simp only [if_pos hk]
      exact h.2
    · rw [erase]
      simp only [if_neg hk]
      rw [keys_cons, List.nodup_cons]
      exact ⟨fun hmem => h.1 (keys_erase_subset m k pk hmem), ih h.2⟩

theorem get?_erase_self {m : IntMap α} (k : Int) (h : m.keys.Nodup) :
    (m.erase k).get? k = none := by
  induction m with
  | nil => rfl
  | cons p m ih =>
    obtain ⟨pk, pv⟩ := p
    rw [keys_cons, List.nodup_cons] at h
    by_cases hk : k = pk
    · subst hk
      rw [erase]
      simp only [if_pos rfl]
      exact get?_eq_none_of_notMem h.1
    · rw [erase]
      simp only [if_neg hk]
      simp [get?, hk, ih h.2]

theorem size_insert_new {m : IntMap α} {k : Int} (v : α) (h : m.get? k = none) :
    (m.insert k v).size = m.size + 1 := by
  induction m with
  | nil => rfl
  | cons p m ih =>
    obtain ⟨pk, pv⟩ := p
    by_cases hk : k = pk
    · simp [get?, hk] at h
    · simp [get?, hk] at h
      simp [insert, hk, size] at ih ⊢
      exact ih h

theorem size_insert_existing {m : IntMap α} {k : Int} {v₀ : α} (v : α)
    (h : m.get? k = some v₀) : (m.insert k v).size = m.size := by
  induction m with
  | nil => simp [get?] at h
  | cons p m ih =>
    obtain ⟨pk, pv⟩ := p
    by_cases hk : k = pk
    · simp [insert, hk, size]
    · simp [get?, hk] at h
      simp [insert, hk, size] at ih ⊢
      exact ih h

end IntMap

section BellmanFord

variable {W : Type} [LinearOrder W] [Add W] [Zero W]

end BellmanFord

/-- Every edge of the chain goes from a smaller to a larger id, so the chain
graph has no cycle at all, in particular no negative-weight cycle. -/
theorem bfChainSucc_increasing : ∀ v w : Int, w ∈ bfChainSucc v → v < w := by
  intro v w h
  unfold bfChainSucc at h
  split at h <;> simp_all

/-- C1: the initialization leaves every non-source cost absent as claimed,
but a relaxation comparison reads an absent cost through Go's
`map[int]float64` zero value `0`, not as `+∞`.  Relaxing the edge (0,1) of
the chain 0 →(1) 1 →(1) 2 from the initial state does not update node 1
(the code compares `0 + 1 < 0`), although the claim requires an update
because `costs[0] + 1 = 1` is below an absent (`+∞`) cost.  Consequently a
full run from source 0 returns costs holding only the source. -/
theorem bellmanFord_reads_absent_cost_as_zero :
    relaxEdge bfChainW 0 1 { costs := [(0, 0)], pred := [] } =
      { costs := [(0, 0)], pred := [] } ∧
    bellmanFord [0, 1, 2] bfChainSucc bfChainW 0 =
      .ok ([(0, [0])], [(0, 0)]) :=
  ⟨by decide, by decide⟩

/-- C3: on the acyclic chain 0 →(-1) 1 →(-1) 2 (see
`bfChainSucc_increasing`), enumerated in the node order [2, 1, 0] (Go map
iteration order is unspecified, so this is a legal `g.Nodes()` order),
BellmanFord from source 0 reports a negative-weight cycle although the
graph has no cycle at all: with the zero-default cost reads and only
`len(nodes) - 2 = 1` relaxation pass, the final scan still finds a
relaxable edge. -/
theorem bellmanFord_negcycle_error_on_acyclic_graph :
    bellmanFord [2, 1, 0] bfChainSucc bfNegChainW 0 =
      .error "Negative edge cycle detected" := by decide

section AStarPQ

variable {W : Type} [LinearOrder W] [Add W] [Zero W]

namespace APQ

end APQ

end AStarPQ

section APQLemmas

variable {W : Type} [LinearOrder W] [Add W] [Zero W]

theorem cons_set_perm {α : Type} {l : List α} {m : Nat} {b : α}
    (hb : l.get? m = some b) (a : α) : (b :: l.set m a).Perm (a :: l) := by
  induction l generalizing m with
  | nil => simp [List.get?] at hb
  | cons hd tl ih =>
    cases m with
    | zero =>
      rw [List.get?_cons_zero, Option.some.injEq] at hb
      show (b :: a :: tl).Perm (a :: hd :: tl)
      rw [hb]
      exact List.Perm.swap a b tl
    | succ m =>
      rw [List.get?_cons_succ] at hb
      refine List.Perm.trans (List.Perm.swap hd b (tl.set m a)) ?_
      exact List.Perm.trans (List.Perm.cons hd (ih hb)) (List.Perm.swap a hd tl)

theorem set_set_perm {α : Type} {l : List α} {i j : Nat} {a b : α} (hij : i ≠ j)
    (ha : l.get? i = some a) (hb : l.get? j = some b) :
    ((l.set i b).set j a).Perm l := by
  induction l generalizing i j with
  | nil => simp [List.get?] at ha
  | cons hd tl ih =>
    cases i with
    | zero =>
      rw [List.get?_cons_zero, Option.some.injEq] at ha
      cases j with
      | zero => exact absurd rfl hij
      | succ m =>
        rw [List.get?_cons_succ] at hb
        show (b :: tl.set m a).Perm (hd :: tl)
        rw [ha]
        exact cons_set_perm hb a
    | succ n =>
      cases j with
      | zero =>
        rw [List.get?_cons_zero, Option.some.injEq] at hb
        rw [List.get?_cons_succ] at ha
        show (a :: tl.set n b).Perm (hd :: tl)
        rw [hb]
        exact cons_set_perm ha b
      | succ m =>
        rw [List.get?_cons_succ] at ha hb
        show (hd :: (tl.set n b).set m a).Perm (hd :: tl)
        exact List.Perm.cons hd (ih (fun h => hij (by omega)) ha hb)

theorem set_get_self {α : Type} {l : List α} {i : Nat} {a : α}
    (h : l.get? i = some a) : l.set i a = l := by
  induction l generalizing i with
  | nil => rfl
  | cons hd tl ih =>
    cases i with
    | zero =>
      rw [List.get?_cons_zero, Option.some.injEq] at h
      simp [h]
    | succ n =>
      rw [List.get?_cons_succ] at h
      simp [ih h]

theorem swap_nodes_get? {pq : APQ W} {i j : Nat} {a b : InternalNode W}
    (ha : pq.nodes.get? i = some a) (hb : pq.nodes.get? j = some b) (k : Nat) :
    (pq.swap i j).nodes.get? k =
      if k = j then some a else if k = i then some b else pq.nodes.get? k := by
  have hi : i < pq.nodes.length := (List.get?_eq_some.mp ha).1
  have hj : j < pq.nodes.length := (List.get?_eq_some.mp hb).1
  rw [APQ.swap, ha, hb]
  show ((pq.nodes.set i b).set j a).get? k = _
  rw [List.get?_eq_getElem?]
  by_cases hkj : k = j
  · subst hkj
    rw [if_pos rfl, List.getElem?_set_self (by simpa using hj)]
  · rw [if_neg hkj, List.getElem?_set_ne (fun h => hkj h.symm)]
    by_cases hki : k = i
    · subst hki
      rw [if_pos rfl, List.getElem?_set_self hi]
    · rw [if_neg hki, List.getElem?_set_ne (fun h => hki h.symm),
        ← List.get?_eq_getElem?]

theorem swap_wf {pq : APQ W} {i j : Nat} (h : PQWF pq)
    (hi : i < pq.nodes.length) (hj : j < pq.nodes.length) :
    PQWF (pq.swap i j) ∧ (pq.swap i j).nodes.Perm pq.nodes := by
  obtain ⟨hnodup, hknodup, hiff⟩ := h
  obtain ⟨a, ha⟩ : ∃ a, pq.nodes.get? i = some a := ⟨_, List.get?_eq_get hi⟩
  obtain ⟨b, hb⟩ : ∃ b, pq.nodes.get? j = some b := ⟨_, List.get?_eq_get hj⟩
  by_cases hij : i = j
  · subst hij
    have hab : a = b := by rw [ha] at hb; exact Option.some.inj hb
    subst hab
    have hswap : pq.swap i i = pq := by
      rw [APQ.swap, ha]
      have h1 : pq.indexList.get? a.id = some i := (hiff a.id i).mpr ⟨a, ha, rfl⟩
      have h2 : pq.indexList.insert a.id i = pq.indexList := IntMap.insert_eq_self h1
      simp [h2, List.set_set, set_get_self ha]
    rw [hswap]
    exact ⟨⟨hnodup, hknodup, hiff⟩, List.Perm.refl _⟩
  · have hperm : (pq.swap i j).nodes.Perm pq.nodes := by
      rw [APQ.swap, ha, hb]
      exact set_set_perm hij ha hb
    have habid : a.id ≠ b.id := by
      intro hcontra
      have h1 : pq.indexList.get? a.id = some i := (hiff a.id i).mpr ⟨a, ha, rfl⟩
      have h2 : pq.indexList.get? b.id = some j := (hiff b.id j).mpr ⟨b, hb, rfl⟩
      rw [hcontra] at h1
      rw [h1] at h2
      exact hij (Option.some.inj h2)
    have hidx : (pq.swap i j).indexList =
        (pq.indexList.insert a.id j).insert b.id i := by
      rw [APQ.swap, ha, hb]
    refine ⟨⟨?_, ?_, ?_⟩, hperm⟩
    · show (List.map (fun nd : InternalNode W => nd.id) (pq.swap i j).nodes).Nodup
      exact ((List.Perm.map (fun nd : InternalNode W => nd.id) hperm).nodup_iff).mpr hnodup
    · rw [hidx]
      exact IntMap.keys_insert_nodup _ _ (IntMap.keys_insert_nodup _ _ hknodup)
    · intro id k
      rw [hidx, swap_nodes_get? ha hb]
      by_cases hid : id = b.id
      · subst hid
        rw [IntMap.get?_insert_self]
        constructor
        · intro hk
          simp only [Option.some.injEq] at hk
          subst hk
          refine ⟨b, ?_, rfl⟩
          rw [if_neg hij, if_pos rfl]
        · rintro ⟨nd, hnd, hndid⟩
          by_cases hkj : k = j
          · rw [if_pos hkj] at hnd
            injection hnd with h
            subst h
            exact absurd hndid habid
          · by_cases hki : k = i
            · rw [hki]
            · rw [if_neg hkj, if_neg hki] at hnd
              have h1 := (hiff b.id k).mpr ⟨nd, hnd, hndid⟩
              have h2 := (hiff b.id j).mpr ⟨b, hb, rfl⟩
              rw [h1] at h2
              injection h2 with h2
              exact absurd h2 hkj
      · rw [IntMap.get?_insert_ne _ _ hid]
        by_cases hid' : id = a.id
        · subst hid'
          rw [IntMap.get?_insert_self]
          constructor
          · intro hk
            simp only [Option.some.injEq] at hk
            subst hk
            exact ⟨a, by rw [if_pos rfl], rfl⟩
          · rintro ⟨nd, hnd, hndid⟩
            by_cases hkj : k = j
            · rw [hkj]
            · by_cases hki : k = i
              · rw [if_neg hkj, if_pos hki] at hnd
                injection hnd with h
                subst h
                exact absurd hndid.symm habid
              · rw [if_neg hkj, if_neg hki] at hnd
                have h1 := (hiff a.id k).mpr ⟨nd, hnd, hndid⟩
                have h2 := (hiff a.id i).mpr ⟨a, ha, rfl⟩
                rw [h1] at h2
                injection h2 with h2
                exact absurd h2 hki
        · rw [IntMap.get?_insert_ne _ _ hid', hiff id k]
          constructor
          · rintro ⟨nd, hnd, hndid⟩
            by_cases hkj : k = j
            · subst hkj
              rw [hnd] at hb
              injection hb with h
              subst h
              exact absurd hndid.symm hid
            · by_cases hki : k = i
              · subst hki
                rw [hnd] at ha
                injection ha with h
                subst h
                exact absurd hndid.symm hid'
              · exact ⟨nd, by rw [if_neg hkj, if_neg hki]; exact hnd, hndid⟩
          · rintro ⟨nd, hnd, hndid⟩
            by_cases hkj : k = j
            · rw [if_pos hkj] at hnd
              injection hnd with h
              subst h
              exact absurd hndid.symm hid'
            · by_cases hki : k = i
              · rw [if_neg hkj, if_pos hki] at hnd
                injection hnd with h
                subst h
                exact absurd hndid.symm hid
              · rw [if_neg hkj, if_neg hki] at hnd
                exact ⟨nd, hnd, hndid⟩

theorem less_true_lt {pq : APQ W} {i j : Nat} (h : pq.less i j = true) :
    i < pq.nodes.length ∧ j < pq.nodes.length := by
  rw [APQ.less] at h
  match hi : pq.nodes.get? i, hj : pq.nodes.get? j with
  | some a, some b =>
    exact ⟨(List.get?_eq_some.mp hi).1, (List.get?_eq_some.mp hj).1⟩
  | some a, none => rw [hi, hj] at h; simp at h
  | none, some b => rw [hi, hj] at h; simp at h
  | none, none => rw [hi, hj] at h; simp at h

theorem upFuel_wf : ∀ (fuel : Nat) (pq : APQ W) (j : Nat), PQWF pq →
    PQWF (APQ.upFuel fuel pq j) ∧ (APQ.upFuel fuel pq j).nodes.Perm pq.nodes := by
  intro fuel
  induction fuel with
  | zero => intro pq j h; exact ⟨h, List.Perm.refl _⟩
  | succ n ih =>
    intro pq j h
    rw [APQ.upFuel]
    split
    · exact ⟨h, List.Perm.refl _⟩
    · rename_i hcond
      push_neg at hcond
      obtain ⟨hne, hless⟩ := hcond
      obtain ⟨hj, hi⟩ := less_true_lt hless
      obtain ⟨hwf, hperm⟩ := swap_wf h hi hj
      obtain ⟨hwf', hperm'⟩ := ih _ _ hwf
      exact ⟨hwf', hperm'.trans hperm⟩

theorem downFuel_wf : ∀ (fuel : Nat) (pq : APQ W) (i n : Nat), PQWF pq →
    PQWF (APQ.downFuel fuel pq i n).1 ∧
      (APQ.downFuel fuel pq i n).1.nodes.Perm pq.nodes := by
  intro fuel
  induction fuel with
  | zero => intro pq i n h; exact ⟨h, List.Perm.refl _⟩
  | succ m ih =>
    intro pq i n h
    simp only [APQ.downFuel]
    split
    · exact ⟨h, List.Perm.refl _⟩
    · split <;>
      · split
        · exact ⟨h, List.Perm.refl _⟩
        · rename_i hcond
          push_neg at hcond
          obtain ⟨hjlt, hilt⟩ := less_true_lt hcond
          obtain ⟨hwf, hperm⟩ := swap_wf h hilt hjlt
          obtain ⟨hwf', hperm'⟩ := ih _ _ _ hwf
          exact ⟨hwf', hperm'.trans hperm⟩

theorem idsOf_append_x (pq : APQ W) (x : InternalNode W) :
    idsOf { indexList := pq.indexList.insert x.id pq.nodes.length,
            nodes := pq.nodes ++ [x] } = idsOf pq ++ [x.id] := by
  simp [idsOf]

theorem push_wf {pq : APQ W} {x : InternalNode W} (h : PQWF pq)
    (hx : x.id ∉ idsOf pq) :
    PQWF (pq.push x) ∧ (pq.push x).nodes.Perm (x :: pq.nodes) := by
  obtain ⟨hnodup, hknodup, hiff⟩ := h
  set pq1 : APQ W :=
    { indexList := pq.indexList.insert x.id pq.nodes.length,
      nodes := pq.nodes ++ [x] } with hpq1
  have h1 : PQWF pq1 := by
    refine ⟨?_, ?_, ?_⟩
    · show (idsOf pq1).Nodup
      rw [hpq1, idsOf_append_x]
      simp [List.nodup_append, hnodup, hx]
    · exact IntMap.keys_insert_nodup _ _ hknodup
    · intro id k
      show (pq.indexList.insert x.id pq.nodes.length).get? id = some k ↔
        ∃ nd, (pq.nodes ++ [x]).get? k = some nd ∧ nd.id = id
      by_cases hid : id = x.id
      · subst hid
        rw [IntMap.get?_insert_self]
        constructor
        · intro hk
          simp only [Option.some.injEq] at hk
          subst hk
          refine ⟨x, ?_, rfl⟩
          rw [List.get?_eq_getElem?, List.getElem?_append_right (le_refl _)]
          simp
        · rintro ⟨nd, hnd, hndid⟩
          rcases Nat.lt_trichotomy k pq.nodes.length with hk | hk | hk
          · rw [List.get?_eq_getElem?, List.getElem?_append_left hk,
              ← List.get?_eq_getElem?] at hnd
            exact absurd (hndid ▸ List.mem_map_of_mem (·.id)
              (List.mem_iff_get?.mpr ⟨k, hnd⟩)) hx
          · rw [hk]
          · rw [List.get?_eq_getElem?, List.getElem?_append_right (le_of_lt hk),
              List.getElem?_eq_none (by simp; omega)] at hnd
            exact Option.noConfusion hnd
      · rw [IntMap.get?_insert_ne _ _ hid, hiff id k]
        constructor
        · rintro ⟨nd, hnd, hndid⟩
          have hk : k < pq.nodes.length := (List.get?_eq_some.mp hnd).1
          refine ⟨nd, ?_, hndid⟩
          rw [List.get?_eq_getElem?, List.getElem?_append_left hk,
            ← List.get?_eq_getElem?]
          exact hnd
        · rintro ⟨nd, hnd, hndid⟩
          rcases Nat.lt_trichotomy k pq.nodes.length with hk | hk | hk
          · rw [List.get?_eq_getElem?, List.getElem?_append_left hk,
              ← List.get?_eq_getElem?] at hnd
            exact ⟨nd, hnd, hndid⟩
          · subst hk
            rw [List.get?_eq_getElem?, List.getElem?_append_right (le_refl _)] at hnd
            simp at hnd
            subst hnd
            exact absurd hndid.symm hid
          · rw [List.get?_eq_getElem?, List.getElem?_append_right (le_of_lt hk),
              List.getElem?_eq_none (by simp; omega)] at hnd
            exact Option.noConfusion hnd
  have hperm1 : pq1.nodes.Perm (x :: pq.nodes) := List.perm_append_singleton x pq.nodes
  obtain ⟨hwf', hperm'⟩ := upFuel_wf (pq1.nodes.length - 1 + 1) pq1 (pq1.nodes.length - 1) h1
  exact ⟨hwf', hperm'.trans hperm1⟩

theorem dropLast_get? {α : Type} (l : List α) (k : Nat) :
    l.dropLast.get? k = if k < l.length - 1 then l.get? k else none := by
  rw [List.get?_eq_getElem?, List.dropLast_eq_take, List.getElem?_take,
    ← List.get?_eq_getElem?]

theorem pop_wf {pq : APQ W} (h : PQWF pq) (hne : pq.nodes ≠ []) :
    ∃ x pq', pq.pop = (some x, pq') ∧ x ∈ pq.nodes ∧ PQWF pq' ∧
      (x :: pq'.nodes).Perm pq.nodes := by
  have hlen : 0 < pq.nodes.length := List.length_pos.mpr hne
  obtain ⟨hwf1, hperm1⟩ := swap_wf h hlen (by omega :
    pq.nodes.length - 1 < pq.nodes.length)
  set pq1 := pq.swap 0 (pq.nodes.length - 1) with hpq1
  obtain ⟨hwf2, hperm2⟩ := downFuel_wf (pq.nodes.length - 1) pq1 0
    (pq.nodes.length - 1) hwf1
  set pq2 := (APQ.downFuel (pq.nodes.length - 1) pq1 0 (pq.nodes.length - 1)).1
    with hpq2
  have hperm : pq2.nodes.Perm pq.nodes := hperm2.trans hperm1
  have hne2 : pq2.nodes ≠ [] := by
    intro hcontra
    rw [hcontra] at hperm
    exact hne (hperm.symm.eq_nil)
  obtain ⟨hnodup2, hknodup2, hiff2⟩ := hwf2
  set x := pq2.nodes.getLast hne2 with hx
  have hlast : pq2.nodes.getLast? = some x := List.getLast?_eq_getLast _ hne2
  have hsplit : pq2.nodes.dropLast ++ [x] = pq2.nodes :=
    List.dropLast_append_getLast hne2
  have hpop : pq.pop = (some x,
      APQ.mk (pq2.indexList.erase x.id) pq2.nodes.dropLast) := by
    rw [APQ.pop]
    show (match pq2.nodes.getLast? with
      | none => (none, pq2)
      | some x => (some x,
          { indexList := pq2.indexList.erase x.id, nodes := pq2.nodes.dropLast })) = _
    rw [hlast]
  have hxmem : x ∈ pq.nodes := hperm.subset (List.getLast_mem hne2)
  have hlen2 : pq2.nodes.length = pq.nodes.length := hperm.length_eq
  have hids2 : idsOf pq2 = List.map (fun nd : InternalNode W => nd.id)
      pq2.nodes.dropLast ++ [x.id] := by
    show List.map (fun nd : InternalNode W => nd.id) pq2.nodes = _
    conv => lhs; rw [← hsplit]
    simp
  have hxid_not : x.id ∉ List.map (fun nd : InternalNode W => nd.id)
      pq2.nodes.dropLast := by
    have := hnodup2
    rw [show idsOf pq2 = List.map (fun nd : InternalNode W => nd.id) pq2.nodes
        from rfl] at this
    rw [show (List.map (fun nd : InternalNode W => nd.id) pq2.nodes).Nodup ↔
        (List.map (fun nd : InternalNode W => nd.id)
          (pq2.nodes.dropLast ++ [x])).Nodup from by rw [hsplit]] at this
    simp only [List.map_append, List.map_cons, List.map_nil,
      List.nodup_append] at this
    intro hmem
    exact this.2.2 hmem (by simp)
  refine ⟨x, _, hpop, hxmem, ⟨?_, ?_, ?_⟩, ?_⟩
  · show (List.map (fun nd : InternalNode W => nd.id) pq2.nodes.dropLast).Nodup
    exact ((List.dropLast_sublist pq2.nodes).map _).nodup hnodup2
  · exact IntMap.keys_erase_nodup _ hknodup2
  · intro id k
    show (pq2.indexList.erase x.id).get? id = some k ↔
      ∃ nd, pq2.nodes.dropLast.get? k = some nd ∧ nd.id = id
    by_cases hid : id = x.id
    · subst hid
      rw [IntMap.get?_erase_self _ hknodup2]
      constructor
      · intro hcontra
        exact Option.noConfusion hcontra
      · rintro ⟨nd, hnd, hndid⟩
        exact absurd (hndid ▸ List.mem_map_of_mem _
          (List.mem_iff_get?.mpr ⟨k, hnd⟩)) hxid_not
    · rw [IntMap.get?_erase_ne _ hid, hiff2 id k]
      constructor
      · rintro ⟨nd, hnd, hndid⟩
        refine ⟨nd, ?_, hndid⟩
        rw [dropLast_get?]
        have hk : k < pq2.nodes.length := (List.get?_eq_some.mp hnd).1
        by_cases hkl : k < pq2.nodes.length - 1
        · rw [if_pos hkl]; exact hnd
        · have hkeq : k = pq2.nodes.length - 1 := by omega
          subst hkeq
          have hdl : pq2.nodes.dropLast.length = pq2.nodes.length - 1 :=
            List.length_dropLast _
          have e1 : (pq2.nodes.dropLast ++
              [x])[(pq2.nodes.dropLast ++ [x]).length - 1]? = some x := by
            rw [List.getElem?_append_right (by simp)]
            simp
          have e2 : pq2.nodes.get? (pq2.nodes.length - 1) = some x := by
            rw [List.get?_eq_getElem?]
            conv => lhs; rw [← hsplit]
            exact e1
          rw [e2] at hnd
          injection hnd with hnd
          subst hnd
          exact absurd hndid.symm hid
      · rintro ⟨nd, hnd, hndid⟩
        rw [dropLast_get?] at hnd
        by_cases hkl : k < pq2.nodes.length - 1
        · rw [if_pos hkl] at hnd
          exact ⟨nd, hnd, hndid⟩
        · rw [if_neg hkl] at hnd
          exact Option.noConfusion hnd
  · show (x :: pq2.nodes.dropLast).Perm pq.nodes
    refine List.Perm.trans ?_ hperm
    conv => rhs; rw [← hsplit]
    exact (List.perm_append_singleton x pq2.nodes.dropLast).symm

theorem find_spec {pq : APQ W} (h : PQWF pq) (id : Int) :
    (pq.find id = none ∧ id ∉ idsOf pq) ∨
    ∃ nd, pq.find id = some nd ∧ nd ∈ pq.nodes ∧ nd.id = id := by
  obtain ⟨hnodup, hknodup, hiff⟩ := h
  rw [APQ.find]
  match hg : pq.indexList.get? id with
  | some loc =>
    obtain ⟨nd, hnd, hndid⟩ := (hiff id loc).mp hg
    exact Or.inr ⟨nd, hnd, List.mem_iff_get?.mpr ⟨loc, hnd⟩, hndid⟩
  | none =>
    refine Or.inl ⟨rfl, fun hmem => ?_⟩
    obtain ⟨nd, hndmem, hndid⟩ := List.mem_map.mp hmem
    obtain ⟨k, hk⟩ := List.mem_iff_get?.mp hndmem
    rw [(hiff id k).mpr ⟨nd, hk, hndid⟩] at hg
    exact Option.noConfusion hg

theorem fix_wf {pq : APQ W} (h : PQWF pq) (id : Int) (g f : W) :
    PQWF (pq.fix id g f) ∧ (idsOf (pq.fix id g f)).Perm (idsOf pq) := by
  obtain ⟨hnodup, hknodup, hiff⟩ := h
  cases hg : pq.indexList.get? id with
  | none =>
    rw [APQ.fix, hg]
    exact ⟨⟨hnodup, hknodup, hiff⟩, List.Perm.refl _⟩
  | some i =>
    obtain ⟨nd, hnd, hndid⟩ := (hiff id i).mp hg
    rw [APQ.fix, hg]
    dsimp only
    rw [hnd]
    dsimp only
    have h1 : PQWF (APQ.mk pq.indexList
        (pq.nodes.set i (InternalNode.mk nd.id g f))) := by
      refine ⟨?_, hknodup, ?_⟩
      · show (List.map (·.id)
          (pq.nodes.set i { id := nd.id, gscore := g, fscore := f })).Nodup
        rw [List.map_set]
        have heq : (pq.nodes.map (·.id)).set i nd.id = pq.nodes.map (·.id) := by
          apply set_get_self
          rw [List.get?_map, hnd]
          rfl
        show ((pq.nodes.map (·.id)).set i nd.id).Nodup
        rw [heq]
        exact hnodup
      · intro id' k
        show pq.indexList.get? id' = some k ↔ _
        rw [hiff id' k]
        by_cases hk : k = i
        · subst hk
          constructor
          · rintro ⟨nd₀, hnd₀, hid₀⟩
            have : nd₀ = nd := by rw [hnd₀] at hnd; exact Option.some.inj hnd
            subst this
            refine ⟨{ id := nd₀.id, gscore := g, fscore := f }, ?_, hid₀⟩
            rw [List.get?_eq_getElem?,
              List.getElem?_set_self (List.get?_eq_some.mp hnd).1]
          · rintro ⟨nd₀, hnd₀, hid₀⟩
            rw [List.get?_eq_getElem?,
              List.getElem?_set_self (List.get?_eq_some.mp hnd).1] at hnd₀
            have : { id := nd.id, gscore := g, fscore := f } = nd₀ :=
              Option.some.inj hnd₀
            exact ⟨nd, hnd, by rw [← hid₀, ← this]⟩
        · constructor
          · rintro ⟨nd₀, hnd₀, hid₀⟩
            refine ⟨nd₀, ?_, hid₀⟩
            rw [List.get?_eq_getElem?, List.getElem?_set_ne (fun hh => hk hh.symm),
              ← List.get?_eq_getElem?]
            exact hnd₀
          · rintro ⟨nd₀, hnd₀, hid₀⟩
            rw [List.get?_eq_getElem?, List.getElem?_set_ne (fun hh => hk hh.symm),
              ← List.get?_eq_getElem?] at hnd₀
            exact ⟨nd₀, hnd₀, hid₀⟩
    have hids1 : idsOf (APQ.mk pq.indexList
        (pq.nodes.set i (InternalNode.mk nd.id g f))) = idsOf pq := by
      show List.map (·.id) (pq.nodes.set i _) = _
      rw [List.map_set]
      apply set_get_self
      rw [List.get?_map, hnd]
      rfl
    obtain ⟨hwf2, hperm2⟩ := downFuel_wf _ _ i _ h1
    have heq : List.map (fun x : InternalNode W => x.id)
        (pq.nodes.set i (InternalNode.mk nd.id g f)) = idsOf pq := hids1
    have hp1 : (List.map (fun x : InternalNode W => x.id)
        (pq.nodes.set i (InternalNode.mk nd.id g f))).Perm (idsOf pq) := by
      rw [heq]
    split
    · exact ⟨hwf2, (hperm2.map (fun x : InternalNode W => x.id)).trans hp1⟩
    · obtain ⟨hwf3, hperm3⟩ := upFuel_wf (i + 1) _ i hwf2
      exact ⟨hwf3,
        ((hperm3.trans hperm2).map (fun x : InternalNode W => x.id)).trans hp1⟩

end APQLemmas

section AStarAlgo

variable {W : Type} [LinearOrder W] [Add W] [Zero W]

end AStarAlgo

section AStarInv

variable {W : Type} [LinearOrder W] [Add W] [Zero W]

/-- Unreachability follows from any successor-closed set that contains the
start but not the goal. -/
theorem not_reach_of_closed {next : Int → List Int} {R : List Int} {s t : Int}
    (hclosed : ∀ x ∈ R, ∀ y ∈ next x, y ∈ R) (hs : s ∈ R) (ht : t ∉ R) :
    ¬ Reach next s t := by
  have hall : ∀ x, Reach next s x → x ∈ R := by
    intro x hx
    induction hx with
    | refl => exact hs
    | tail _ hstep ih => exact hclosed _ ih _ hstep
  exact fun hr => ht (hall t hr)

/-- One neighbor step of the scan preserves the open-set invariants and
leaves the closed set and the expansion counter unchanged. -/
theorem scan_step {U : List Int} {from_ : Int → List Int} {start goal : Int}
    {w heuristic : Int → Int → W} {curr : InternalNode W} {st : AStarState W}
    {v : Int} (hv : v ∈ U ∧ Reach from_ start v)
    (hwf : PQWF st.openSet)
    (hopen : ∀ id ∈ idsOf st.openSet,
      id ∈ U ∧ Reach from_ start id ∧ st.closedSet.get? id = none) :
    PQWF (aStarScan goal w heuristic curr st v).openSet ∧
    (∀ id ∈ idsOf (aStarScan goal w heuristic curr st v).openSet,
      id ∈ U ∧ Reach from_ start id ∧ st.closedSet.get? id = none) ∧
    (aStarScan goal w heuristic curr st v).closedSet = st.closedSet ∧
    (aStarScan goal w heuristic curr st v).nodesExpanded = st.nodesExpanded := by
  rw [aStarScan]
  by_cases hcl : (st.closedSet.get? v).isSome
  · rw [if_pos hcl]
    exact ⟨hwf, hopen, rfl, rfl⟩
  · rw [if_neg hcl]
    rcases find_spec hwf v with ⟨hfind, hnotin⟩ | ⟨nd, hfind, _, _⟩
    · rw [hfind]
      dsimp only
      have hvnone : st.closedSet.get? v = none := by
        cases hg : st.closedSet.get? v with
        | none => rfl
        | some _ => rw [hg] at hcl; simp at hcl
      obtain ⟨hwf', hperm'⟩ := push_wf (x := InternalNode.mk v
        (curr.gscore + w curr.id v)
        (curr.gscore + w curr.id v + heuristic v goal)) hwf hnotin
      refine ⟨hwf', ?_, rfl, rfl⟩
      intro id hid
      have : id ∈ idsOf (APQ.mk st.openSet.indexList st.openSet.nodes) ∨ id = v := by
        have hmem := (hperm'.map (fun nd : InternalNode W => nd.id)).subset hid
        simp at hmem
        rcases hmem with h | h
        · exact Or.inr h
        · exact Or.inl (by simpa [idsOf] using h)
      rcases this with h | h
      · exact hopen id (by simpa [idsOf] using h)
      · subst h
        exact ⟨hv.1, hv.2, hvnone⟩
    · rw [hfind]
      dsimp only
      by_cases hlt : curr.gscore + w curr.id v < nd.gscore
      · rw [if_pos hlt]
        obtain ⟨hwf', hperm'⟩ := fix_wf hwf v (curr.gscore + w curr.id v)
          (curr.gscore + w curr.id v + heuristic v goal)
        refine ⟨hwf', ?_, rfl, rfl⟩
        intro id hid
        exact hopen id (hperm'.subset hid)
      · rw [if_neg hlt]
        exact ⟨hwf, hopen, rfl, rfl⟩

/-- The whole neighbor scan, as a fold. -/
theorem scan_fold {U : List Int} {from_ : Int → List Int} {start goal : Int}
    {w heuristic : Int → Int → W} {curr : InternalNode W} :
    ∀ (vs : List Int) (st : AStarState W),
    (∀ v ∈ vs, v ∈ U ∧ Reach from_ start v) →
    PQWF st.openSet →
    (∀ id ∈ idsOf st.openSet,
      id ∈ U ∧ Reach from_ start id ∧ st.closedSet.get? id = none) →
    PQWF (vs.foldl (aStarScan goal w heuristic curr) st).openSet ∧
    (∀ id ∈ idsOf (vs.foldl (aStarScan goal w heuristic curr) st).openSet,
      id ∈ U ∧ Reach from_ start id ∧
        (vs.foldl (aStarScan goal w heuristic curr) st).closedSet.get? id = none) ∧
    (vs.foldl (aStarScan goal w heuristic curr) st).closedSet = st.closedSet ∧
    (vs.foldl (aStarScan goal w heuristic curr) st).nodesExpanded =
      st.nodesExpanded := by
  intro vs
  induction vs with
  | nil => intro st _ hwf hopen; exact ⟨hwf, fun id hid =>
      ⟨(hopen id hid).1, (hopen id hid).2.1, (hopen id hid).2.2⟩, rfl, rfl⟩
  | cons v rest ih =>
    intro st hvs hwf hopen
    simp only [List.foldl_cons]
    obtain ⟨hwf1, hopen1, hcl1, hexp1⟩ :=
      scan_step (hvs v (by simp)) hwf hopen
    have hopen1' : ∀ id ∈ idsOf (aStarScan goal w heuristic curr st v).openSet,
        id ∈ U ∧ Reach from_ start id ∧
          (aStarScan goal w heuristic curr st v).closedSet.get? id = none := by
      intro id hid
      obtain ⟨h1, h2, h3⟩ := hopen1 id hid
      exact ⟨h1, h2, by rw [hcl1]; exact h3⟩
    obtain ⟨hwf2, hopen2, hcl2, hexp2⟩ := ih (aStarScan goal w heuristic curr st v)
      (fun u hu => hvs u (by simp [hu])) hwf1 hopen1'
    exact ⟨hwf2, hopen2, by rw [hcl2, hcl1], by rw [hexp2, hexp1]⟩

theorem filter_length_mono {p q : Int → Bool} (himp : ∀ u, q u = true → p u = true) :
    ∀ U : List Int, (U.filter q).length ≤ (U.filter p).length := by
  intro U
  induction U with
  | nil => simp
  | cons u rest ih =>
    by_cases hq : q u = true
    · rw [List.filter_cons_of_pos hq, List.filter_cons_of_pos (himp u hq)]
      simpa using ih
    · rw [List.filter_cons_of_neg (by simpa using hq)]
      by_cases hp : p u = true
      · rw [List.filter_cons_of_pos hp]
        simp
        omega
      · rw [List.filter_cons_of_neg (by simpa using hp)]
        exact ih

theorem filter_length_lt {p q : Int → Bool} {U : List Int} {x : Int}
    (himp : ∀ u, q u = true → p u = true) (hx : x ∈ U) (hpx : p x = true)
    (hqx : q x = false) : (U.filter q).length < (U.filter p).length := by
  induction U with
  | nil => simp at hx
  | cons u rest ih =>
    by_cases hxu : x = u
    · subst hxu
      rw [List.filter_cons_of_pos hpx, List.filter_cons_of_neg (by simp [hqx])]
      have := filter_length_mono himp rest
      simpa using Nat.lt_succ_of_le this
    · have hxr : x ∈ rest := by
        rcases List.mem_cons.mp hx with h | h
        · exact absurd h hxu
        · exact h
      by_cases hq : q u = true
      · rw [List.filter_cons_of_pos hq, List.filter_cons_of_pos (himp u hq)]
        simpa using ih hxr
      · rw [List.filter_cons_of_neg (by simpa using hq)]
        by_cases hp : p u = true
        · rw [List.filter_cons_of_pos hp]
          have := ih hxr
          simp
          omega
        · rw [List.filter_cons_of_neg (by simpa using hp)]
          exact ih hxr

theorem aStarLoop_spec {U : List Int} {from_ : Int → List Int} {start goal : Int}
    {w heuristic : Int → Int → W}
    (hU : ∀ x ∈ U, ∀ y ∈ from_ x, y ∈ U) :
    ∀ (fuel : Nat) (st : AStarState W), AInv U from_ start st →
    (U.filter fun u => ¬(st.closedSet.get? u).isSome).length < fuel →
    ∃ r, aStarLoop goal from_ w heuristic fuel st = some r ∧
      (¬ Reach from_ start goal → r.1 = [] ∧ r.2.1 = 0) ∧
      ∃ L : List Int, L.Nodup ∧ (∀ x ∈ L, x ∈ U ∧ Reach from_ start x) ∧
        r.2.2 ≤ L.length := by
  intro fuel
  induction fuel with
  | zero => intro st _ hm; omega
  | succ n ih =>
    intro st hinv hm
    rw [aStarLoop]
    by_cases hlen : st.openSet.len ≠ 0
    · rw [if_pos hlen]
      have hne : st.openSet.nodes ≠ [] := by
        intro hcontra
        exact hlen (by simp [APQ.len, hcontra])
      obtain ⟨x, pq', hpop, hxmem, hwf', hperm'⟩ := pop_wf hinv.pq_wf hne
      rw [hpop]
      dsimp only
      have hxid : x.id ∈ idsOf st.openSet :=
        List.mem_map_of_mem (fun nd : InternalNode W => nd.id) hxmem
      obtain ⟨hxU, hxReach, hxNone⟩ := hinv.open_inv x.id hxid
      have hxNotKeys : x.id ∉ IntMap.keys st.closedSet := by
        intro hmem
        have := (IntMap.get?_isSome_iff_mem_keys st.closedSet x.id).mpr hmem
        rw [hxNone] at this
        simp at this
      have hsizekeys : st.closedSet.size = (IntMap.keys st.closedSet).length := by
        simp [IntMap.size, IntMap.keys]
      by_cases hgoal : x.id = goal
      · rw [if_pos hgoal]
        refine ⟨_, rfl, ?_, ?_⟩
        · intro hnr
          exact absurd (hgoal ▸ hxReach) hnr
        · refine ⟨x.id :: IntMap.keys st.closedSet, ?_, ?_, ?_⟩
          · exact List.nodup_cons.mpr ⟨hxNotKeys, hinv.closed_nodup⟩
          · intro y hy
            rcases List.mem_cons.mp hy with h | h
            · subst h
              exact ⟨hxU, hxReach⟩
            · obtain ⟨p, hp, hpeq⟩ := List.mem_map.mp h
              exact hpeq ▸ hinv.closed_inv p hp
          · show st.nodesExpanded + 1 ≤ _
            rw [hinv.expanded_eq, hsizekeys]
            simp
      · rw [if_neg hgoal]
        have hxNotOpen' : x.id ∉ idsOf pq' := by
          have hnodup : (idsOf st.openSet).Nodup := hinv.pq_wf.1
          have hpermids : (x.id :: idsOf pq').Perm (idsOf st.openSet) := by
            simpa using hperm'.map (fun nd : InternalNode W => nd.id)
          have := hpermids.nodup_iff.mpr hnodup
          exact (List.nodup_cons.mp this).1
        have hopen2 : ∀ id ∈ idsOf pq',
            id ∈ U ∧ Reach from_ start id ∧
            (st.closedSet.insert x.id x).get? id = none := by
          intro id hid
          have hidold : id ∈ idsOf st.openSet := by
            have hpermids : (x.id :: idsOf pq').Perm (idsOf st.openSet) := by
              simpa using hperm'.map (fun nd : InternalNode W => nd.id)
            exact hpermids.subset (List.mem_cons.mpr (Or.inr hid))
          obtain ⟨h1, h2, h3⟩ := hinv.open_inv id hidold
          have hne' : id ≠ x.id := fun hcontra => hxNotOpen' (hcontra ▸ hid)
          exact ⟨h1, h2, by rw [IntMap.get?_insert_ne _ _ hne']; exact h3⟩
        have hvs : ∀ v ∈ from_ x.id, v ∈ U ∧ Reach from_ start v := by
          intro v hv
          exact ⟨hU x.id hxU v hv, hxReach.tail hv⟩
        obtain ⟨hwf3, hopen3, hcl3, hexp3⟩ := scan_fold (from_ x.id)
          { st with openSet := pq', nodesExpanded := st.nodesExpanded + 1,
                    closedSet := st.closedSet.insert x.id x } hvs hwf' hopen2
        have hinv3 : AInv U from_ start
            ((from_ x.id).foldl (aStarScan goal w heuristic x)
              { st with openSet := pq', nodesExpanded := st.nodesExpanded + 1,
                        closedSet := st.closedSet.insert x.id x }) := by
          refine ⟨hwf3, ?_, hopen3, ?_, ?_⟩
          · rw [hcl3]
            exact IntMap.keys_insert_nodup _ _ hinv.closed_nodup
          · intro p hp
            rw [hcl3] at hp
            rcases IntMap.mem_of_mem_insert hp with h | h
            · exact hinv.closed_inv p h
            · rw [h]
              exact ⟨hxU, hxReach⟩
          · rw [hexp3, hcl3]
            show st.nodesExpanded + 1 = _
            rw [hinv.expanded_eq, IntMap.size_insert_new x hxNone]
        have hmeas : (U.filter fun u =>
            ¬(((from_ x.id).foldl (aStarScan goal w heuristic x)
              { st with openSet := pq', nodesExpanded := st.nodesExpanded + 1,
                        closedSet := st.closedSet.insert x.id x
              }).closedSet.get? u).isSome).length <
            (U.filter fun u => ¬(st.closedSet.get? u).isSome).length := by
          rw [hcl3]
          refine filter_length_lt (x := x.id) ?_ hxU ?_ ?_
          · intro u hq
            simp only [decide_eq_true_eq] at hq ⊢
            intro hcontra
            by_cases hux : u = x.id
            · subst hux
              rw [IntMap.get?_insert_self] at hq
              simp at hq
            · rw [IntMap.get?_insert_ne _ _ hux] at hq
              exact hq hcontra
          · simp [hxNone]
          · simp [IntMap.get?_insert_self]
        obtain ⟨r, hr, hr0, L, hL⟩ := ih _ hinv3 (by omega)
        exact ⟨r, hr, hr0, L, hL⟩
    · rw [if_neg hlen]
      refine ⟨([], 0, st.nodesExpanded), rfl, fun _ => ⟨rfl, rfl⟩,
        IntMap.keys st.closedSet, hinv.closed_nodup, ?_, ?_⟩
      · intro y hy
        obtain ⟨p, hp, hpeq⟩ := List.mem_map.mp hy
        exact hpeq ▸ hinv.closed_inv p hp
      · show st.nodesExpanded ≤ _
        rw [hinv.expanded_eq]
        simp [IntMap.size, IntMap.keys]

theorem aStar_init_inv {U : List Int} {from_ : Int → List Int} {start goal : Int}
    {heuristic : Int → Int → W} (hstart : start ∈ U) :
    AInv U from_ start
      (AStarState.mk IntMap.empty
        (APQ.empty.push (InternalNode.mk start 0 (heuristic start goal)))
        IntMap.empty 0) := by
  have hewf : PQWF (APQ.empty : APQ W) := by
    refine ⟨by simp [idsOf, APQ.empty], by simp [APQ.empty, IntMap.empty, IntMap.keys], ?_⟩
    intro id i
    constructor
    · intro h
      exact Option.noConfusion h
    · rintro ⟨nd, hnd, _⟩
      exact Option.noConfusion hnd
  obtain ⟨hwf, hperm⟩ := push_wf (x := InternalNode.mk start 0 (heuristic start goal))
    hewf (by simp [idsOf, APQ.empty])
  refine ⟨hwf, by simp [IntMap.keys, IntMap.empty], ?_, ?_, rfl⟩
  · intro id hid
    have : id ∈ List.map (fun nd : InternalNode W => nd.id)
        [InternalNode.mk start 0 (heuristic start goal)] := by
      refine (hperm.map (fun nd : InternalNode W => nd.id)).subset ?_
      simpa [idsOf] using hid
    simp at this
    subst this
    exact ⟨hstart, Relation.ReflTransGen.refl, rfl⟩
  · intro p hp
    simp [IntMap.empty] at hp

end AStarInv

theorem astarCexFrom_cases : ∀ u v : Int, v ∈ astarCexFrom u →
    (u = 0 ∧ (v = 1 ∨ v = 2)) ∨ (u = 1 ∧ v = 3) ∨ (u = 2 ∧ v = 1) := by
  intro u v h
  unfold astarCexFrom at h
  split at h <;> simp_all

theorem astarCexW_nonneg : ∀ u v : Int, v ∈ astarCexFrom u → 0 ≤ astarCexW u v := by
  intro u v h
  rcases astarCexFrom_cases u v h with ⟨rfl, rfl | rfl⟩ | ⟨rfl, rfl⟩ | ⟨rfl, rfl⟩ <;>
    decide

theorem astarCexW_walk_nonneg :
    ∀ p : List Int, List.Chain' astarCexStep p → 0 ≤ walkCost astarCexW p := by
  intro p
  induction p with
  | nil => intro _; simp [walkCost]
  | cons u rest ih =>
    cases rest with
    | nil => intro _; simp [walkCost]
    | cons v rest2 =>
      intro hch
      rw [List.chain'_cons] at hch
      have h1 : 0 ≤ astarCexW u v := astarCexW_nonneg u v hch.1
      have h2 : 0 ≤ walkCost astarCexW (v :: rest2) := ih hch.2
      show 0 ≤ astarCexW u v + walkCost astarCexW (v :: rest2)
      linarith

/-- Admissibility of the counterexample heuristic: the estimate never
exceeds the cost of any walk to the goal. -/
theorem astarCexH_admissible : ∀ (u : Int) (p : List Int),
    List.Chain' astarCexStep (u :: p) → (u :: p).getLast? = some 3 →
    astarCexH u 3 ≤ walkCost astarCexW (u :: p) := by
  intro u p hch hlast
  by_cases hu : u = 2
  · subst hu
    cases p with
    | nil => simp at hlast
    | cons v rest =>
      rw [List.chain'_cons] at hch
      have hv : v = 1 := by
        have := hch.1
        simp [astarCexStep, astarCexFrom] at this
        exact this
      subst hv
      cases rest with
      | nil => simp at hlast
      | cons v2 rest2 =>
        rw [List.chain'_cons] at hch
        have hv2 : v2 = 3 := by
          have := hch.2.1
          simp [astarCexStep, astarCexFrom] at this
          exact this
        subst hv2
        have h0 : 0 ≤ walkCost astarCexW (3 :: rest2) :=
          astarCexW_walk_nonneg _ hch.2.2
        show astarCexH 2 3 ≤
          astarCexW 2 1 + (astarCexW 1 3 + walkCost astarCexW (3 :: rest2))
        have e1 : astarCexH 2 3 = 3 := by decide
        have e2 : astarCexW 2 1 = 1 := by decide
        have e3 : astarCexW 1 3 = 100 := by decide
        rw [e1, e2, e3]; linarith
  · have h0 : astarCexH u 3 = 0 := by
      unfold astarCexH
      split <;> simp_all
    rw [h0]
    exact astarCexW_walk_nonneg _ hch

namespace UGraph

end UGraph

section Prim

variable {W : Type} [LinearOrder W] [Add W] [Zero W]

/-- A state on which `primStep` loops forever. -/
theorem primStep_fixpoint_loops (edgeList : List (Int × Int)) (w : Int → Int → W)
    (st : PrimState W) (h : primStep edgeList w st = .next st) :
    ∀ fuel, primLoop edgeList w fuel st = .outOfFuel := by
  intro fuel
  induction fuel with
  | zero => rfl
  | succ n ih => rw [primLoop, h]; exact ih

end Prim

/-- C7: the connected two-node graph with the single undirected edge
{1, 2} of weight 1, enumerated as `Nodes() = [1, 2]` and
`Edges() = [(1, 2)]` (the stored orientation of the edge value).  Prim
seeds the destination with node 1; the only candidate edge is (1, 2), it is
added, but the loop removes `edge.From().ID() = 1` — which is not in the
remaining set — instead of the newly attached node 2, so the remaining set
never shrinks and the loop never terminates: for every fuel the loop is
still running.  The claim requires Prim to terminate with a spanning
tree. -/
theorem prim_nonterminating_on_two_node_graph :
    ∀ fuel : Nat,
      prim [1, 2] [(1, 2)] (fun _ _ => (1 : ℤ)) fuel = .outOfFuel := by
  intro fuel
  cases fuel with
  | zero => rfl
  | succ n =>
    show primLoop [(1, 2)] (fun _ _ => (1 : ℤ)) (n + 1)
      { dst := UGraph.emptyU.addNode 1, remaining := [2] } = .outOfFuel
    rw [primLoop]
    have h1 : primStep [(1, 2)] (fun _ _ => (1 : ℤ))
        { dst := UGraph.emptyU.addNode 1, remaining := [2] } =
        .next { dst := { nodeList := [1, 2],
                         neighbors := [(1, [(2, 1)]), (2, [(1, 1)])] },
                remaining := [2] } := by decide
    rw [h1]
    exact primStep_fixpoint_loops _ _ _ (by decide) n

/-- C2: on the counterexample graph all edge weights are non-negative, the
heuristic is admissible, and the goal 3 is reachable from the start 0 via
the walk [0, 1, 3]; nonetheless AStar returns cost 103 while Dijkstra from
the same source records cost 102 for the goal, because AStar skips closed
nodes and the inconsistent (though admissible) heuristic closes node 1 with
a suboptimal g-score before the cheaper route through node 2 is found. -/
theorem aStar_admissible_not_optimal :
    (∀ u v : Int, v ∈ astarCexFrom u → 0 ≤ astarCexW u v) ∧
    (∀ (u : Int) (p : List Int),
      List.Chain' astarCexStep (u :: p) → (u :: p).getLast? = some 3 →
      astarCexH u 3 ≤ walkCost astarCexW (u :: p)) ∧
    List.Chain' astarCexStep [0, 1, 3] ∧
    aStar 0 3 astarCexFrom astarCexW astarCexH 10 = some ([0, 1, 3], 103, 4) ∧
    dijkstra 0 astarCexFrom astarCexW 10 =
      some ([(0, [0]), (1, [0, 2, 1]), (2, [0, 2]), (3, [0, 2, 1, 3])],
        [(0, 0), (1, 2), (2, 1), (3, 102)]) ∧
    (103 : ℤ) ≠ 102 :=
  ⟨astarCexW_nonneg, astarCexH_admissible,
    List.chain'_cons.mpr ⟨by decide, List.chain'_cons.mpr ⟨by decide,
      List.chain'_singleton 3⟩⟩,
    by decide, by decide, by decide⟩

/-- C8: on any graph whose node set `U` is closed under successors and
contains the start, if the goal is unreachable from the start then AStar
(run with enough fuel for its loop, which pops each node at most once)
returns the empty path, cost 0 and an expansion count, with no error
signal of any kind: the open set drains and the final `return nil, 0,
nodesExpanded` fires. -/
theorem aStar_unreachable_returns_empty {W : Type} [LinearOrder W] [Add W] [Zero W]
    (start goal : Int) (from_ : Int → List Int) (w heuristic : Int → Int → W)
    (U : List Int) (hstart : start ∈ U)
    (hU : ∀ x ∈ U, ∀ y ∈ from_ x, y ∈ U)
    (hgoal : ¬ Reach from_ start goal) :
    ∃ k : Nat, aStar start goal from_ w heuristic (U.length + 1) = some ([], 0, k) := by
  obtain ⟨r, hr, hunreach, -, -⟩ :=
    aStarLoop_spec (w := w) hU (U.length + 1)
      (AStarState.mk IntMap.empty
        (APQ.empty.push (InternalNode.mk start 0 (heuristic start goal)))
        IntMap.empty 0)
      (aStar_init_inv hstart)
      (Nat.lt_succ_of_le (List.length_filter_le _ U))
  obtain ⟨p, c, k⟩ := r
  obtain ⟨hp, hc⟩ := hunreach hgoal
  dsimp only at hp hc
  refine ⟨k, ?_⟩
  show aStarLoop goal from_ w heuristic (U.length + 1)
      (AStarState.mk IntMap.empty
        (APQ.empty.push (InternalNode.mk start 0 (heuristic start goal)))
        IntMap.empty 0) = some ([], 0, k)
  rw [hr, hp, hc]

theorem aStar_unreachable_returns_empty_witness :
    ∃ k : Nat, aStar 0 1 (fun _ => []) (fun _ _ => (0 : ℤ)) (fun _ _ => 0) 2 =
      some ([], 0, k) :=
  aStar_unreachable_returns_empty 0 1 (fun _ => []) (fun _ _ => (0 : ℤ))
    (fun _ _ => 0) [0] (by decide) (by intro x _ y hy; simp at hy)
    (not_reach_of_closed (R := [0]) (by intro x _ y hy; simp at hy)
      (by decide) (by decide))

/-- C9: on any graph whose node set `U` is closed under successors and
contains the start, AStar run with fuel `|U| + 1` terminates (returns
`some`), and its expansion count is bounded by the number of nodes
reachable from the start: each loop iteration either returns or moves the
popped node into the closed set, which only ever holds reachable nodes and
whose members are never reinserted into the open set. -/
theorem aStar_terminates_expansion_bounded {W : Type} [LinearOrder W] [Add W] [Zero W]
    (start goal : Int) (from_ : Int → List Int) (w heuristic : Int → Int → W)
    (U : List Int) (hstart : start ∈ U)
    (hU : ∀ x ∈ U, ∀ y ∈ from_ x, y ∈ U) :
    ∃ r : List Int × W × Nat,
      aStar start goal from_ w heuristic (U.length + 1) = some r ∧
      r.2.2 ≤ {x : Int | Reach from_ start x}.ncard := by
  obtain ⟨r, hr, -, L, hnodup, hLmem, hbound⟩ :=
    aStarLoop_spec (w := w) hU (U.length + 1)
      (AStarState.mk IntMap.empty
        (APQ.empty.push (InternalNode.mk start 0 (heuristic start goal)))
        IntMap.empty 0)
      (aStar_init_inv hstart)
      (Nat.lt_succ_of_le (List.length_filter_le _ U))
  have hreachU : ∀ x, Reach from_ start x → x ∈ U := by
    intro x hx
    induction hx with
    | refl => exact hstart
    | tail _ hstep ih => exact hU _ ih _ hstep
  have hSfin : {x : Int | Reach from_ start x}.Finite := by
    refine Set.Finite.subset U.toFinset.finite_toSet ?_
    intro x hx
    simpa using hreachU x hx
  refine ⟨r, ?_, ?_⟩
  · show aStarLoop goal from_ w heuristic (U.length + 1)
        (AStarState.mk IntMap.empty
          (APQ.empty.push (InternalNode.mk start 0 (heuristic start goal)))
          IntMap.empty 0) = some r
    exact hr
  · have hsub : L.toFinset ⊆ hSfin.toFinset := by
      intro x hx
      rw [Set.Finite.mem_toFinset]
      exact (hLmem x (List.mem_toFinset.mp hx)).2
    have hcard : L.toFinset.card = L.length := List.toFinset_card_of_nodup hnodup
    have hle : L.length ≤ {x : Int | Reach from_ start x}.ncard := by
      rw [Set.ncard_eq_toFinset_card _ hSfin, ← hcard]
      exact Finset.card_le_card hsub
    omega

theorem aStar_terminates_expansion_bounded_witness :
    ∃ r : List Int × ℤ × Nat,
      aStar 0 1 (fun _ => []) (fun _ _ => (0 : ℤ)) (fun _ _ => 0) 2 = some r ∧
      r.2.2 ≤ {x : Int | Reach (fun _ => ([] : List Int)) 0 x}.ncard :=
  aStar_terminates_expansion_bounded 0 1 (fun _ => []) (fun _ _ => (0 : ℤ))
    (fun _ _ => 0) [0] (by decide) (by intro x _ y hy; simp at hy)

section DStarLite

variable {W : Type} [LinearOrder W] [Add W] [Zero W]

namespace Ext

end Ext

namespace DQueue

end DQueue

namespace DState

end DState

end DStarLite

/-- C4: `dStarLiteQueue.insert(u, k)` immediately after it the queue does
hold `u` — but with `u`'s pre-existing stored key, not with `k`: the body
is only `heap.Push(q, u)` and the key argument is never written (its own
doc comment says "insert puts the node u into the queue with the key k").
Inserting the fresh node 7 with key (5, 0) leaves the stored key at the
zero value (0, 0) ≠ (5, 0).  This is exactly the construction-time seeding
`d.queue.insert(d.t, key{h(s, t), 0})`, which therefore seeds the goal
with key (0, 0) whenever `h(s,t) ≠ 0`. -/
theorem dstarlite_queue_insert_drops_key :
    (c4State.qInsert 7 (Ext.fin 5, Ext.fin 0)).queue =
      { indexOf := [(7, 0)], ids := [7] } ∧
    ((c4State.qInsert 7 (Ext.fin 5, Ext.fin 0)).getN 7).key = (Ext.fin 0, Ext.fin 0) ∧
    ((Ext.fin 0, Ext.fin 0) : DKey ℤ) ≠ (Ext.fin 5, Ext.fin 0) :=
  ⟨by decide, by decide, by decide⟩

/-- C5: `NewDStarLite` with a nil heuristic argument.  The doc comment and
the claim say the planner falls back to the graph's `HeuristicCost` and
then to the null heuristic, and `d.heuristic` is indeed resolved that way —
but the queue-seeding line `d.queue.insert(d.t, key{h(s, t), 0})` calls the
raw nil argument `h`, so construction panics with a nil function call
instead of completing. -/
theorem newDStarLite_nil_heuristic_panics :
    (newDStarLite 1 2 [1, 2] dslFrom dslWIn none none 10 :
        Option (Except String (DState ℤ))) =
      some (.error "runtime error: invalid memory address or nil pointer dereference") :=
  by decide

/-- C10: construction stores every world node as a `*dStarLiteNode`
wrapper (both world entries are pointer-typed) and completes; but then
`UpdateWorld` with the single change "edge (1,2) now costs 2" reaches the
rhs-recompute loop, whose successor read `t.(dStarLiteNode).g` asserts the
VALUE type `dStarLiteNode` against the stored POINTER `*dStarLiteNode` —
an assertion that can never succeed — and the planner panics
(`findShortestPath` has the same `t.(dStarLiteNode)` read on its
underconsistent branch).  The claim says every such assertion succeeds and
only the negative-weight checks can panic. -/
theorem updateWorld_value_type_assertion_panics :
    (newDStarLite 1 2 [1, 2] dslFrom dslWIn (some fun _ _ => 0) none 10 :
        Option (Except String (DState ℤ))) = some (.ok c10Constructed) ∧
    updateWorld (fun _ _ => 0) dslWIn c10Constructed [((1, 2), 2)] 10 =
      some (.error DState.valAssertMsg) :=
  ⟨by decide, by decide⟩

section Tarjan

theorem IntMap.getD_insert_self {α : Type} (m : IntMap α) (k : Int) (v d : α) :
    (m.insert k v).getD k d = v := by
  rw [IntMap.getD, IntMap.get?_insert_self]
  rfl

theorem IntMap.getD_insert_ne {α : Type} (m : IntMap α) {k k' : Int} (v d : α)
    (h : k' ≠ k) : (m.insert k v).getD k' d = m.getD k' d := by
  rw [IntMap.getD, IntMap.get?_insert_ne _ _ h, IntMap.getD]

theorem unvisCount_mono {U : List Int} {t t' : TState}
    (h : ∀ x, vis t x → vis t' x) : unvisCount U t' ≤ unvisCount U t := by
  refine filter_length_mono ?_ U
  intro u hq
  simp only [decide_eq_true_eq] at hq ⊢
  by_contra hne
  exact h u hne hq

theorem unvisCount_lt {U : List Int} {t t' : TState} {v : Int}
    (hmono : ∀ x, vis t x → vis t' x) (hv : v ∈ U) (hnv : ¬ vis t v)
    (hv' : vis t' v) : unvisCount U t' < unvisCount U t := by
  refine filter_length_lt (x := v) ?_ hv ?_ ?_
  · intro u hq
    simp only [decide_eq_true_eq] at hq ⊢
    by_contra hne
    exact hmono u hne hq
  · simpa [vis] using hnv
  · simpa [vis] using hv'

theorem lowT_setLowT_self (t : TState) (v x : Int) : lowT (setLowT t v x) v = x :=
  IntMap.getD_insert_self _ _ _ _

theorem lowT_setLowT_ne (t : TState) {v y : Int} (x : Int) (h : y ≠ v) :
    lowT (setLowT t v x) y = lowT t y :=
  IntMap.getD_insert_ne _ _ _ h

theorem tinv_setLowT {U : List Int} {succ : Int → List Int} {t : TState} {v x : Int}
    (hinv : TInv U succ t) (hv : v ∈ t.stack) (hle : x ≤ lowT t v)
    (hopen : ∃ y ∈ t.stack, x = idxT t y) : TInv U succ (setLowT t v x) := by
  refine ⟨hinv.stack_nodup, hinv.stack_vis, hinv.vis_mem, hinv.vis_cover,
    hinv.stack_unemitted, hinv.emitted_vis, hinv.index_nonneg, hinv.idx_bound,
    ?_, ?_, hinv.onStack_iff, hinv.onStack_nodup, hinv.sccs_nodup,
    hinv.sccs_disj, hinv.sccs_closed⟩
  · intro z hz
    by_cases hzv : z = v
    · subst hzv
      rw [lowT_setLowT_self]
      exact le_trans hle (hinv.low_le z hz)
    · rw [lowT_setLowT_ne _ _ hzv]
      exact hinv.low_le z hz
  · intro z hz
    by_cases hzv : z = v
    · subst hzv
      obtain ⟨y, hy, hxy⟩ := hopen
      exact ⟨y, hy, by rw [lowT_setLowT_self]; exact hxy⟩
    · obtain ⟨y, hy, hxy⟩ := hinv.low_open z hz
      exact ⟨y, hy, by rw [lowT_setLowT_ne _ _ hzv]; exact hxy⟩

theorem csinv_setLowT {succ : Int → List Int} {A : List Int} {t : TState} {v x : Int}
    (hcs : csInv succ (v :: A) t) : csInv succ (v :: A) (setLowT t v x) := by
  intro u hu huA w hw
  have hune : u ≠ v := fun hc => huA (hc ▸ List.mem_cons_self v A)
  obtain ⟨h1, h2⟩ := hcs u hu huA w hw
  refine ⟨h1, ?_⟩
  rw [lowT_setLowT_ne _ _ hune]
  exact h2

theorem idxT_pushT_self (t : TState) (v : Int) : idxT (pushT t v) v = t.index + 1 :=
  IntMap.getD_insert_self _ _ _ _

theorem idxT_pushT_ne (t : TState) {v x : Int} (h : x ≠ v) :
    idxT (pushT t v) x = idxT t x :=
  IntMap.getD_insert_ne _ _ _ h

theorem lowT_pushT_self (t : TState) (v : Int) : lowT (pushT t v) v = t.index + 1 :=
  IntMap.getD_insert_self _ _ _ _

theorem lowT_pushT_ne (t : TState) {v x : Int} (h : x ≠ v) :
    lowT (pushT t v) x = lowT t x :=
  IntMap.getD_insert_ne _ _ _ h

theorem vis_pushT {t : TState} {v : Int} (hn : 0 ≤ t.index) (x : Int) :
    vis (pushT t v) x ↔ x = v ∨ vis t x := by
  by_cases hx : x = v
  · subst hx
    show (t.indexTable.insert x (t.index + 1)).getD x 0 ≠ 0 ↔ _
    rw [IntMap.getD_insert_self]
    constructor
    · intro _; exact Or.inl rfl
    · intro _; omega
  · show (t.indexTable.insert v (t.index + 1)).getD x 0 ≠ 0 ↔ _
    rw [IntMap.getD_insert_ne _ _ _ hx]
    constructor
    · exact Or.inr
    · rintro (h | h)
      · exact absurd h hx
      · exact h

theorem push_step {U : List Int} {succ : Int → List Int} {A : List Int} {v : Int}
    {t0 : TState} (hinv : TInv U succ t0) (hcs : csInv succ A t0)
    (hA : ∀ a ∈ A, vis t0 a) (hvU : v ∈ U) (hnv : ¬ vis t0 v) :
    LInv U succ A v t0 (pushT t0 v) := by
  have hpi : (pushT t0 v).index = t0.index + 1 := rfl
  have hvs : v ∉ t0.stack := fun hc => hnv (hinv.stack_vis v hc)
  have hvo : v ∉ t0.onStack := fun hc => hvs ((hinv.onStack_iff v).mp hc)
  have hos : (pushT t0 v).onStack = v :: t0.onStack := by
    show (if v ∈ t0.onStack then t0.onStack else v :: t0.onStack) = _
    rw [if_neg hvo]
  have hvis : ∀ x, vis (pushT t0 v) x ↔ x = v ∨ vis t0 x := vis_pushT hinv.index_nonneg
  have hne_old : ∀ x, vis t0 x → x ≠ v := fun x hx hc => hnv (hc ▸ hx)
  have hidx_old : ∀ x, vis t0 x → idxT (pushT t0 v) x = idxT t0 x :=
    fun x hx => idxT_pushT_ne _ (hne_old x hx)
  have hlow_old : ∀ x, vis t0 x → lowT (pushT t0 v) x = lowT t0 x :=
    fun x hx => lowT_pushT_ne _ (hne_old x hx)
  have hmemstack : ∀ x, x ∈ (pushT t0 v).stack ↔ x ∈ t0.stack ∨ x = v := by
    intro x
    show x ∈ t0.stack ++ [v] ↔ _
    simp
  have hidxv : idxT (pushT t0 v) v = t0.index + 1 := idxT_pushT_self t0 v
  have hlowv : lowT (pushT t0 v) v = t0.index + 1 := lowT_pushT_self t0 v
  have hviseq : vis (pushT t0 v) v := (hvis v).mpr (Or.inl rfl)
  have hemeq : ∀ x, emittedT (pushT t0 v) x ↔ emittedT t0 x := fun _ => Iff.rfl
  have htinv : TInv U succ (pushT t0 v) := by
    refine ⟨?_, ?_, ?_, ?_, ?_, ?_, ?_, ?_, ?_, ?_, ?_, ?_,
      hinv.sccs_nodup, hinv.sccs_disj, hinv.sccs_closed⟩
    · show (t0.stack ++ [v]).Nodup
      rw [List.nodup_append]
      refine ⟨hinv.stack_nodup, List.nodup_singleton v, ?_⟩
      intro a ha hb
      rw [List.mem_singleton] at hb
      subst hb
      exact hvs ha
    · intro x hx
      rcases (hmemstack x).mp hx with h | h
      · exact (hvis x).mpr (Or.inr (hinv.stack_vis x h))
      · subst h; exact hviseq
    · intro x hx
      rcases (hvis x).mp hx with h | h
      · subst h; exact hvU
      · exact hinv.vis_mem x h
    · intro x hx
      rcases (hvis x).mp hx with h | h
      · subst h; exact Or.inl ((hmemstack x).mpr (Or.inr rfl))
      · rcases hinv.vis_cover x h with h2 | h2
        · exact Or.inl ((hmemstack x).mpr (Or.inl h2))
        · exact Or.inr ((hemeq x).mpr h2)
    · intro x hx hem
      rcases (hmemstack x).mp hx with h | h
      · exact hinv.stack_unemitted x h ((hemeq x).mp hem)
      · subst h; exact hnv (hinv.emitted_vis x ((hemeq x).mp hem))
    · intro x hem
      exact (hvis x).mpr (Or.inr (hinv.emitted_vis x ((hemeq x).mp hem)))
    · rw [hpi]
      have := hinv.index_nonneg
      omega
    · intro x hx
      rw [hpi]
      rcases (hvis x).mp hx with h | h
      · subst h
        rw [hidxv]
        have := hinv.index_nonneg
        omega
      · have h2 := hinv.idx_bound x h
        rw [hidx_old x h]
        omega
    · intro x hx
      rcases (hmemstack x).mp hx with h | h
      · rw [hlow_old x (hinv.stack_vis x h), hidx_old x (hinv.stack_vis x h)]
        exact hinv.low_le x h
      · subst h
        rw [hlowv, hidxv]
    · intro x hx
      rcases (hmemstack x).mp hx with h | h
      · obtain ⟨y, hy, hxy⟩ := hinv.low_open x h
        refine ⟨y, (hmemstack y).mpr (Or.inl hy), ?_⟩
        rw [hlow_old x (hinv.stack_vis x h), hidx_old y (hinv.stack_vis y hy)]
        exact hxy
      · subst h
        exact ⟨x, (hmemstack x).mpr (Or.inr rfl), by rw [hlowv, hidxv]⟩
    · intro x
      rw [hos, hmemstack x, List.mem_cons, hinv.onStack_iff x]
      tauto
    · rw [hos]
      exact List.nodup_cons.mpr ⟨hvo, hinv.onStack_nodup⟩
  have hcs1 : csInv succ (v :: A) (pushT t0 v) := by
    intro u hu huA w hw
    have hune : u ≠ v := fun hc => huA (hc ▸ List.mem_cons_self v A)
    have hu0 : u ∈ t0.stack := by
      rcases (hmemstack u).mp hu with h | h
      · exact h
      · exact absurd h hune
    have huA0 : u ∉ A := fun hc => huA (List.mem_cons_of_mem v hc)
    obtain ⟨h1, h2⟩ := hcs u hu0 huA0 w hw
    have hwne : w ≠ v := hne_old w h1
    refine ⟨(hvis w).mpr (Or.inr h1), ?_⟩
    rcases h2 with h2 | h2
    · exact Or.inl ((hemeq w).mpr h2)
    · right
      rw [hlow_old u (hinv.stack_vis u hu0), idxT_pushT_ne _ hwne]
      exact h2
  refine ⟨htinv, hcs1, ?_, hviseq, ?_, ?_, ?_,
    ⟨[], (List.append_nil _).symm⟩, ⟨[], rfl, by simp, by simp⟩, hidxv, hnv,
    hinv.stack_vis, (fun x hx => (hinv.idx_bound x hx).2), hA⟩
  · intro a ha
    exact (hvis a).mpr (Or.inr (hA a ha))
  · intro x hx
    exact ⟨(hvis x).mpr (Or.inr hx), hidx_old x hx, hlow_old x hx⟩
  · rw [hpi]
    omega
  · intro x hx hnx
    have hxv : x = v := by
      rcases (hvis x).mp hx with h | h
      · exact h
      · exact absurd h hnx
    subst hxv
    rw [hidxv]
    omega

theorem emittedT_ext {t t' : TState} (h : ∃ ns, t'.sccs = t.sccs ++ ns) {x : Int}
    (he : emittedT t x) : emittedT t' x := by
  obtain ⟨ns, hns⟩ := h
  obtain ⟨c, hc, hxc⟩ := he
  exact ⟨c, by rw [hns]; exact List.mem_append_left _ hc, hxc⟩

theorem pv_transfer {v : Int} (t t2 : TState) {done : List Int}
    (hPV : ∀ w ∈ done, vis t w ∧ (emittedT t w ∨ lowT t v ≤ idxT t w))
    (hvs : ∀ x, vis t x → vis t2 x)
    (hem : ∀ x, emittedT t x → emittedT t2 x)
    (hidx : ∀ x, vis t x → idxT t2 x = idxT t x)
    (hlow : lowT t2 v ≤ lowT t v) :
    ∀ w ∈ done, vis t2 w ∧ (emittedT t2 w ∨ lowT t2 v ≤ idxT t2 w) := by
  intro w hw
  obtain ⟨h1, h2⟩ := hPV w hw
  refine ⟨hvs w h1, ?_⟩
  rcases h2 with h2 | h2
  · exact Or.inl (hem w h2)
  · right
    rw [hidx w h1]
    exact le_trans hlow h2

theorem linv_mem_stack {U : List Int} {succ : Int → List Int} {A : List Int}
    {v : Int} {t0 t : TState} (hL : LInv U succ A v t0 t) : v ∈ t.stack := by
  obtain ⟨T, hT, -, -⟩ := hL.stack_ext
  rw [hT]
  exact List.mem_append_right _ (List.mem_cons_self _ _)

theorem linv_setLowT {U : List Int} {succ : Int → List Int} {A : List Int}
    {v x : Int} {t0 t : TState}
    (hL : LInv U succ A v t0 t) (hle : x ≤ lowT t v)
    (hopen : ∃ y ∈ t.stack, x = idxT t y) :
    LInv U succ A v t0 (setLowT t v x) := by
  refine ⟨tinv_setLowT hL.inv (linv_mem_stack hL) hle hopen, csinv_setLowT hL.cs,
    hL.activeA, hL.vis_v, ?_, hL.idx_lt, hL.fresh, hL.sccs_ext, ?_, hL.idx_v, hL.nv0,
    hL.svis0, hL.idx0_le, hL.activeA0⟩
  · intro z hz
    obtain ⟨h1, h2, h3⟩ := hL.pres z hz
    refine ⟨h1, h2, ?_⟩
    rw [lowT_setLowT_ne _ _ (fun hc => hL.nv0 (by rw [← hc]; exact hz))]
    exact h3
  · obtain ⟨T, hT, hTf, hTlb⟩ := hL.stack_ext
    refine ⟨T, hT, hTf, ?_⟩
    intro z hzT
    rw [lowT_setLowT_self, lowT_setLowT_ne _ _ (hTf z hzT).2]
    exact le_trans hle (hTlb z hzT)

theorem onstack_step {U : List Int} {succ : Int → List Int} {A : List Int}
    {v w : Int} {t0 t : TState}
    (hL : LInv U succ A v t0 t) (hwon : w ∈ t.onStack) :
    LInv U succ A v t0 (setLowT t v (min (lowT t v) (idxT t w))) ∧
    vis (setLowT t v (min (lowT t v) (idxT t w))) w ∧
    lowT (setLowT t v (min (lowT t v) (idxT t w))) v ≤
      idxT (setLowT t v (min (lowT t v) (idxT t w))) w ∧
    lowT (setLowT t v (min (lowT t v) (idxT t w))) v ≤ lowT t v := by
  have hv : v ∈ t.stack := linv_mem_stack hL
  have hw_stack : w ∈ t.stack := (hL.inv.onStack_iff w).mp hwon
  have hopen : ∃ y ∈ t.stack, min (lowT t v) (idxT t w) = idxT t y := by
    rcases min_cases (lowT t v) (idxT t w) with ⟨he, -⟩ | ⟨he, -⟩
    · obtain ⟨y, hy, hxy⟩ := hL.inv.low_open v hv
      exact ⟨y, hy, by rw [he]; exact hxy⟩
    · exact ⟨w, hw_stack, he⟩
  refine ⟨linv_setLowT hL (min_le_left _ _) hopen, hL.inv.stack_vis w hw_stack,
    ?_, ?_⟩
  · rw [lowT_setLowT_self]
    exact min_le_right _ _
  · rw [lowT_setLowT_self]
    exact min_le_left _ _

theorem child_step {U : List Int} {succ : Int → List Int} {A : List Int}
    {v w : Int} {t0 t t' : TState}
    (hL : LInv U succ A v t0 t)
    (hpost : SPost U succ (v :: A) w t t') :
    LInv U succ A v t0 (setLowT t' v (min (lowT t' v) (lowT t' w))) ∧
    vis (setLowT t' v (min (lowT t' v) (lowT t' w))) w ∧
    (emittedT (setLowT t' v (min (lowT t' v) (lowT t' w))) w ∨
      lowT (setLowT t' v (min (lowT t' v) (lowT t' w))) v ≤
        idxT (setLowT t' v (min (lowT t' v) (lowT t' w))) w) ∧
    lowT (setLowT t' v (min (lowT t' v) (lowT t' w))) v ≤ lowT t v ∧
    (∀ x, vis t x → vis (setLowT t' v (min (lowT t' v) (lowT t' w))) x ∧
      idxT (setLowT t' v (min (lowT t' v) (lowT t' w))) x = idxT t x) ∧
    (∀ x, emittedT t x → emittedT (setLowT t' v (min (lowT t' v) (lowT t' w))) x) := by
  obtain ⟨T, hT, hTf, hTlb⟩ := hL.stack_ext
  have hv : v ∈ t.stack := by
    rw [hT]
    exact List.mem_append_right _ (List.mem_cons_self _ _)
  obtain ⟨hvv', hidxv', hlowv'⟩ := hpost.pres v hL.vis_v
  have hv' : v ∈ t'.stack := by
    rcases hpost.split with ⟨hs, -, -⟩ | ⟨S, hs, -, -, -, -⟩
    · rw [hs]; exact hv
    · rw [hs]; exact List.mem_append_left _ hv
  have hle : min (lowT t' v) (lowT t' w) ≤ lowT t' v := min_le_left _ _
  have hopen : ∃ y ∈ t'.stack, min (lowT t' v) (lowT t' w) = idxT t' y := by
    rcases min_cases (lowT t' v) (lowT t' w) with ⟨he, -⟩ | ⟨he, hlt⟩
    · obtain ⟨y, hy, hxy⟩ := hpost.inv.low_open v hv'
      exact ⟨y, hy, by rw [he]; exact hxy⟩
    · rcases hpost.split with ⟨hs, hem, hei⟩ | ⟨S, hs, hwS, -, -, -⟩
      · exfalso
        have h2 : idxT t' w = t.index + 1 := hpost.idx_v
        have h4 : lowT t v ≤ idxT t v := hL.inv.low_le v hv
        have h5 : idxT t v ≤ t.index := (hL.inv.idx_bound v hL.vis_v).2
        rw [hei, h2, hlowv'] at hlt
        omega
      · obtain ⟨y, hy, hxy⟩ := hpost.inv.low_open w
          (by rw [hs]; exact List.mem_append_right _ hwS)
        exact ⟨y, hy, by rw [he]; exact hxy⟩
  have htinv : TInv U succ (setLowT t' v (min (lowT t' v) (lowT t' w))) :=
    tinv_setLowT hpost.inv hv' hle hopen
  have hpres2 : ∀ x, vis t x →
      vis (setLowT t' v (min (lowT t' v) (lowT t' w))) x ∧
      idxT (setLowT t' v (min (lowT t' v) (lowT t' w))) x = idxT t x := by
    intro x hx
    obtain ⟨h1, h2, h3⟩ := hpost.pres x hx
    exact ⟨h1, h2⟩
  have hlowdec : lowT (setLowT t' v (min (lowT t' v) (lowT t' w))) v ≤ lowT t v := by
    rw [lowT_setLowT_self]
    rw [← hlowv']
    exact hle
  have hlow_frozen : ∀ x, vis t x → x ≠ v →
      lowT (setLowT t' v (min (lowT t' v) (lowT t' w))) x = lowT t x := by
    intro x hx hne
    rw [lowT_setLowT_ne _ _ hne]
    exact (hpost.pres x hx).2.2
  have hTvis : ∀ x ∈ T, vis t x := by
    intro x hxT
    refine hL.inv.stack_vis x ?_
    rw [hT]
    exact List.mem_append_right _ (List.mem_cons_of_mem _ hxT)
  refine ⟨⟨htinv, csinv_setLowT hpost.cs, ?_, hvv', ?_, ?_, ?_, ?_, ?_, ?_, hL.nv0,
    hL.svis0, hL.idx0_le, hL.activeA0⟩,
    hpost.vis_v, ?_, hlowdec, hpres2, ?_⟩
  · intro a ha
    exact (hpost.pres a (hL.activeA a ha)).1
  · intro z hz
    obtain ⟨h1, h2, h3⟩ := hL.pres z hz
    obtain ⟨h1', h2', h3'⟩ := hpost.pres z h1
    refine ⟨h1', by show idxT t' z = idxT t0 z; rw [h2']; exact h2, ?_⟩
    rw [hlow_frozen z h1 (fun hc => hL.nv0 (by rw [← hc]; exact hz))]
    exact h3
  · exact lt_of_lt_of_le hL.idx_lt hpost.idx_le
  · intro x hx hnx
    by_cases hvt : vis t x
    · have h6 := hL.fresh x hvt hnx
      show t0.index < idxT t' x
      rw [(hpost.pres x hvt).2.1]
      exact h6
    · exact lt_trans hL.idx_lt (hpost.fresh x hx hvt)
  · obtain ⟨ns, h1⟩ := hL.sccs_ext
    obtain ⟨ns2, h2⟩ := hpost.sccs_ext
    exact ⟨ns ++ ns2, by
      show t'.sccs = _
      rw [h2, h1, List.append_assoc]⟩
  · rcases hpost.split with ⟨hs, -, -⟩ | ⟨S, hs, -, hSnv, hSlb, -⟩
    · refine ⟨T, by show t'.stack = _; rw [hs]; exact hT, hTf, ?_⟩
      intro x hxT
      rw [hlow_frozen x (hTvis x hxT) (hTf x hxT).2]
      calc lowT (setLowT t' v (min (lowT t' v) (lowT t' w))) v
          ≤ lowT t v := hlowdec
        _ ≤ lowT t x := hTlb x hxT
    · refine ⟨T ++ S, ?_, ?_, ?_⟩
      · show t'.stack = _
        rw [hs, hT]
        simp
      · intro x hx
        rcases List.mem_append.mp hx with h | h
        · exact hTf x h
        · refine ⟨fun hc => hSnv x h ((hL.pres x hc).1), ?_⟩
          intro hc
          exact hSnv x h (by rw [hc]; exact hL.vis_v)
      · intro x hx
        rcases List.mem_append.mp hx with h | h
        · rw [hlow_frozen x (hTvis x h) (hTf x h).2]
          calc lowT (setLowT t' v (min (lowT t' v) (lowT t' w))) v
              ≤ lowT t v := hlowdec
            _ ≤ lowT t x := hTlb x h
        · have hxnv : x ≠ v := fun hc => hSnv x h (by rw [hc]; exact hL.vis_v)
          rw [lowT_setLowT_ne _ _ hxnv, lowT_setLowT_self]
          exact le_trans (min_le_right _ _) (hSlb x h)
  · show idxT t' v = t0.index + 1
    rw [hidxv']
    exact hL.idx_v
  · rcases hpost.split with ⟨-, hem, -⟩ | ⟨S, hs, hwS, -, -, -⟩
    · exact Or.inl hem
    · right
      rw [lowT_setLowT_self]
      have hwst : w ∈ t'.stack := by
        rw [hs]
        exact List.mem_append_right _ hwS
      exact le_trans (min_le_right _ _) (hpost.inv.low_le w hwst)
  · intro x hx
    exact emittedT_ext hpost.sccs_ext hx

theorem succLoop_spec {U : List Int} {succ : Int → List Int} {A : List Int}
    {v : Int} {t0 : TState} (fuel : Nat)
    (hrec : ∀ (w : Int) (t : TState),
      TInv U succ t → csInv succ (v :: A) t → (∀ a ∈ v :: A, vis t a) →
      w ∈ U → ¬ vis t w → unvisCount U t < fuel →
      ∃ t', strongconnect succ fuel w t = some t' ∧ SPost U succ (v :: A) w t t') :
    ∀ (ws : List Int) (t : TState) (done : List Int),
    (∀ w ∈ ws, w ∈ U) →
    LInv U succ A v t0 t →
    (∀ w ∈ done, vis t w ∧ (emittedT t w ∨ lowT t v ≤ idxT t w)) →
    unvisCount U t < fuel →
    ∃ t2, succLoop (strongconnect succ fuel) v ws t = some t2 ∧
      LInv U succ A v t0 t2 ∧
      (∀ w ∈ done ++ ws, vis t2 w ∧ (emittedT t2 w ∨ lowT t2 v ≤ idxT t2 w)) ∧
      unvisCount U t2 < fuel := by
  intro ws
  induction ws with
  | nil =>
    intro t done _ hL hPV hm
    exact ⟨t, rfl, hL, by simpa using hPV, hm⟩
  | cons w ws ih =>
    intro t done hws hL hPV hm
    rw [succLoop]
    by_cases hw : t.indexTable.getD w 0 = 0
    · rw [if_pos hw]
      have hnvw : ¬ vis t w := by simpa [vis] using hw
      obtain ⟨t', hsc, hpost⟩ := hrec w t hL.inv hL.cs
        (by
          intro a ha
          rcases List.mem_cons.mp ha with h | h
          · rw [h]; exact hL.vis_v
          · exact hL.activeA a h)
        (hws w (List.mem_cons_self _ _)) hnvw hm
      rw [hsc]
      dsimp only
      obtain ⟨hL2, hwvis, hwor, hlowdec, hpres2, hem2⟩ := child_step hL hpost
      have hPV2 : ∀ u ∈ done ++ [w],
          vis (setLowT t' v (min (lowT t' v) (lowT t' w))) u ∧
          (emittedT (setLowT t' v (min (lowT t' v) (lowT t' w))) u ∨
            lowT (setLowT t' v (min (lowT t' v) (lowT t' w))) v ≤
              idxT (setLowT t' v (min (lowT t' v) (lowT t' w))) u) := by
        intro u hu
        rcases List.mem_append.mp hu with h | h
        · exact pv_transfer t (setLowT t' v (min (lowT t' v) (lowT t' w))) hPV
            (fun x hx => (hpres2 x hx).1) hem2
            (fun x hx => (hpres2 x hx).2) hlowdec u h
        · rw [List.mem_singleton] at h
          rw [h]
          exact ⟨hwvis, hwor⟩
      have hm2 : unvisCount U (setLowT t' v (min (lowT t' v) (lowT t' w))) < fuel := by
        have h1 : unvisCount U t' ≤ unvisCount U t :=
          unvisCount_mono (fun x hx => (hpost.pres x hx).1)
        show unvisCount U t' < fuel
        omega
      obtain ⟨t2, hrun, hL3, hPV3, hm3⟩ :=
        ih (setLowT t' v (min (lowT t' v) (lowT t' w))) (done ++ [w])
          (fun u hu => hws u (List.mem_cons_of_mem _ hu)) hL2 hPV2 hm2
      simp only [List.append_assoc, List.singleton_append] at hPV3
      exact ⟨t2, hrun, hL3, hPV3, hm3⟩
    · rw [if_neg hw]
      have hwvis0 : vis t w := hw
      by_cases hwon : w ∈ t.onStack
      · rw [if_pos hwon]
        obtain ⟨hL2, hwvis, hwle, hlowdec⟩ := onstack_step hL hwon
        have hPV2 : ∀ u ∈ done ++ [w],
            vis (setLowT t v (min (lowT t v) (idxT t w))) u ∧
            (emittedT (setLowT t v (min (lowT t v) (idxT t w))) u ∨
              lowT (setLowT t v (min (lowT t v) (idxT t w))) v ≤
                idxT (setLowT t v (min (lowT t v) (idxT t w))) u) := by
          intro u hu
          rcases List.mem_append.mp hu with h | h
          · exact pv_transfer t (setLowT t v (min (lowT t v) (idxT t w))) hPV
              (fun x hx => hx) (fun x hx => hx)
              (fun x _ => rfl) hlowdec u h
          · rw [List.mem_singleton] at h
            rw [h]
            exact ⟨hwvis, Or.inr hwle⟩
        obtain ⟨t2, hrun, hL3, hPV3, hm3⟩ :=
          ih (setLowT t v (min (lowT t v) (idxT t w))) (done ++ [w])
            (fun u hu => hws u (List.mem_cons_of_mem _ hu)) hL2 hPV2 hm
        simp only [List.append_assoc, List.singleton_append] at hPV3
        exact ⟨t2, hrun, hL3, hPV3, hm3⟩
      · rw [if_neg hwon]
        have hwem : emittedT t w := by
          rcases hL.inv.vis_cover w hwvis0 with h | h
          · exact absurd ((hL.inv.onStack_iff w).mpr h) hwon
          · exact h
        have hPV2 : ∀ u ∈ done ++ [w],
            vis t u ∧ (emittedT t u ∨ lowT t v ≤ idxT t u) := by
          intro u hu
          rcases List.mem_append.mp hu with h | h
          · exact hPV u h
          · rw [List.mem_singleton] at h
            rw [h]
            exact ⟨hwvis0, Or.inl hwem⟩
        obtain ⟨t2, hrun, hL3, hPV3, hm3⟩ :=
          ih t (done ++ [w])
            (fun u hu => hws u (List.mem_cons_of_mem _ hu)) hL hPV2 hm
        simp only [List.append_assoc, List.singleton_append] at hPV3
        exact ⟨t2, hrun, hL3, hPV3, hm3⟩

theorem popLoop_eq (v : Int) :
    ∀ (pre rest os scc : List Int), v ∉ pre →
    popLoop v (pre ++ v :: rest) os scc =
      some (rest, (pre ++ [v]).foldl (fun l a => l.erase a) os,
        scc ++ (pre ++ [v])) := by
  intro pre
  induction pre with
  | nil =>
    intro rest os scc _
    rw [List.nil_append, popLoop, if_pos rfl]
    simp
  | cons p pre ih =>
    intro rest os scc hnp
    have hpv : ¬ (p = v) := fun hc => hnp (by rw [hc]; exact List.mem_cons_self _ _)
    rw [List.cons_append, popLoop, if_neg hpv,
      ih rest (os.erase p) (scc ++ [p]) (fun hc => hnp (List.mem_cons_of_mem _ hc))]
    simp

theorem foldl_erase_nodup :
    ∀ (l os : List Int), os.Nodup → (l.foldl (fun a w => a.erase w) os).Nodup := by
  intro l
  induction l with
  | nil => intro os h; exact h
  | cons w l ih =>
    intro os h
    rw [List.foldl_cons]
    exact ih (os.erase w) (h.erase w)

theorem mem_foldl_erase :
    ∀ (l os : List Int), os.Nodup → ∀ x,
      (x ∈ l.foldl (fun a w => a.erase w) os ↔ x ∈ os ∧ x ∉ l) := by
  intro l
  induction l with
  | nil => intro os _ x; simp
  | cons w l ih =>
    intro os h x
    rw [List.foldl_cons, ih (os.erase w) (h.erase w) x, h.mem_erase_iff]
    simp only [List.mem_cons]
    constructor
    · rintro ⟨⟨h1, h2⟩, h3⟩
      exact ⟨h2, by rintro (hc | hc); exact h1 hc; exact h3 hc⟩
    · rintro ⟨h1, h2⟩
      exact ⟨⟨fun hc => h2 (Or.inl hc), h1⟩, fun hc => h2 (Or.inr hc)⟩

theorem get?_append_last (l : List (List Int)) (c : List Int) :
    (l ++ [c]).get? l.length = some c := by
  rw [List.get?_append_right (le_refl _), Nat.sub_self]
  rfl

theorem pop_step {U : List Int} {succ : Int → List Int} {A : List Int}
    {v : Int} {t0 t2 : TState}
    (hL : LInv U succ A v t0 t2)
    (hPV : ∀ w ∈ succ v, vis t2 w ∧ (emittedT t2 w ∨ lowT t2 v ≤ idxT t2 w))
    (hroot : lowT t2 v = idxT t2 v) :
    ∃ restRev os scc,
      popLoop v t2.stack.reverse t2.onStack [] = some (restRev, os, scc) ∧
      SPost U succ A v t0
        (TState.mk t2.index t2.indexTable t2.lowLink os restRev.reverse
          (t2.sccs ++ [scc])) := by
  obtain ⟨T, hT, hTf, hTlb⟩ := hL.stack_ext
  have hnd2 := hL.inv.stack_nodup
  rw [hT, List.nodup_append] at hnd2
  obtain ⟨hnd0, hndvT, hdisj⟩ := hnd2
  have hvT : v ∉ T := (List.nodup_cons.mp hndvT).1
  have hndT : T.Nodup := (List.nodup_cons.mp hndvT).2
  have hv0 : v ∉ t0.stack := fun hc => hdisj hc (List.mem_cons_self _ _)
  have hrev : t2.stack.reverse = T.reverse ++ v :: t0.stack.reverse := by
    rw [hT, List.reverse_append, List.reverse_cons]
    simp
  have hvrevT : v ∉ T.reverse := by simpa using hvT
  have hpop := popLoop_eq v T.reverse t0.stack.reverse t2.onStack [] hvrevT
  rw [List.nil_append] at hpop
  refine ⟨t0.stack.reverse,
    (T.reverse ++ [v]).foldl (fun l a => l.erase a) t2.onStack,
    T.reverse ++ [v], by rw [hrev]; exact hpop, ?_⟩
  rw [List.reverse_reverse]
  have hsccmem : ∀ x, x ∈ T.reverse ++ [v] ↔ x ∈ T ∨ x = v := by
    intro x
    simp
  have hsegmem : ∀ x, (x ∈ T ∨ x = v) ↔ x ∈ v :: T := by
    intro x
    rw [List.mem_cons]
    tauto
  have hseg_stack : ∀ x ∈ v :: T, x ∈ t2.stack := by
    intro x hx
    rw [hT]
    exact List.mem_append_right _ hx
  have hvsegment : ∀ x ∈ v :: T, vis t2 x :=
    fun x hx => hL.inv.stack_vis x (hseg_stack x hx)
  have hos' : ∀ x,
      (x ∈ (T.reverse ++ [v]).foldl (fun l a => l.erase a) t2.onStack ↔
        x ∈ t0.stack) := by
    intro x
    rw [mem_foldl_erase _ _ hL.inv.onStack_nodup x]
    constructor
    · rintro ⟨h1, h2⟩
      have hx2 : x ∈ t2.stack := (hL.inv.onStack_iff x).mp h1
      rw [hT] at hx2
      rcases List.mem_append.mp hx2 with h | h
      · exact h
      · exact absurd ((hsccmem x).mpr ((hsegmem x).mpr h)) h2
    · intro h
      refine ⟨(hL.inv.onStack_iff x).mpr (by rw [hT]; exact List.mem_append_left _ h),
        ?_⟩
      intro hc
      rcases (hsccmem x).mp hc with h2 | h2
      · exact hdisj h (List.mem_cons_of_mem _ h2)
      · rw [h2] at h
        exact hv0 h
  have hemit3 : ∀ x, emittedT (TState.mk t2.index t2.indexTable t2.lowLink
      ((T.reverse ++ [v]).foldl (fun l a => l.erase a) t2.onStack) t0.stack
      (t2.sccs ++ [T.reverse ++ [v]])) x ↔ emittedT t2 x ∨ x ∈ v :: T := by
    intro x
    constructor
    · rintro ⟨c, hc, hxc⟩
      rcases List.mem_append.mp hc with h | h
      · exact Or.inl ⟨c, h, hxc⟩
      · rw [List.mem_singleton] at h
        rw [h] at hxc
        exact Or.inr ((hsegmem x).mp ((hsccmem x).mp hxc))
    · rintro (⟨c, hc, hxc⟩ | h)
      · exact ⟨c, List.mem_append_left _ hc, hxc⟩
      · exact ⟨T.reverse ++ [v], List.mem_append_right _ (List.mem_singleton.mpr rfl),
          (hsccmem x).mpr ((hsegmem x).mpr h)⟩
  have hidx0 : ∀ x ∈ t0.stack, idxT t2 x ≤ t0.index := by
    intro x hx
    have h1 := hL.svis0 x hx
    rw [(hL.pres x h1).2.1]
    exact hL.idx0_le x h1
  have hidxT_big : ∀ y ∈ v :: T, t0.index < idxT t2 y := by
    intro y hy
    rcases List.mem_cons.mp hy with h | h
    · rw [h, hL.idx_v]
      omega
    · exact hL.fresh y (hvsegment y (List.mem_cons_of_mem _ h)) (hTf y h).1
  have hseg_clause : ∀ x ∈ v :: T, ∀ w ∈ succ x,
      vis t2 w ∧ (emittedT t2 w ∨ lowT t2 x ≤ idxT t2 w) := by
    intro x hx w hw
    rcases List.mem_cons.mp hx with h | h
    · rw [h]
      exact hPV w (by rw [← h]; exact hw)
    · refine hL.cs x (hseg_stack x hx) ?_ w hw
      intro hc
      rcases List.mem_cons.mp hc with h2 | h2
      · exact (hTf x h).2 h2
      · exact (hTf x h).1 (hL.activeA0 x h2)
  have hseg_low : ∀ x ∈ v :: T, idxT t2 v ≤ lowT t2 x := by
    intro x hx
    rcases List.mem_cons.mp hx with h | h
    · rw [h, hroot]
    · rw [← hroot]
      exact hTlb x h
  have hseg_target : ∀ x ∈ v :: T, ∀ w ∈ succ x, emittedT t2 w ∨ w ∈ v :: T := by
    intro x hx w hw
    obtain ⟨hwv, hcl⟩ := hseg_clause x hx w hw
    rcases hcl with h | h
    · exact Or.inl h
    · have hge : idxT t2 v ≤ idxT t2 w := le_trans (hseg_low x hx) h
      rcases hL.inv.vis_cover w hwv with h2 | h2
      · rw [hT] at h2
        rcases List.mem_append.mp h2 with h3 | h3
        · exfalso
          have h4 := hidx0 w h3
          rw [hL.idx_v] at hge
          omega
        · exact Or.inr h3
      · exact Or.inl h2
  have hlen : ∀ {i : Nat} {ci : List Int},
      (t2.sccs ++ [T.reverse ++ [v]]).get? i = some ci →
      (i < t2.sccs.length ∧ t2.sccs.get? i = some ci) ∨
      (i = t2.sccs.length ∧ ci = T.reverse ++ [v]) := by
    intro i ci h
    by_cases hi : i < t2.sccs.length
    · left
      refine ⟨hi, ?_⟩
      rw [List.get?_append hi] at h
      exact h
    · right
      push_neg at hi
      rw [List.get?_append_right hi] at h
      rcases Nat.lt_or_ge (i - t2.sccs.length) 1 with h2 | h2
      · have h3 : i - t2.sccs.length = 0 := by omega
        rw [h3] at h
        refine ⟨by omega, ?_⟩
        have h4 : some (T.reverse ++ [v]) = some ci := h
        exact (Option.some.inj h4).symm
      · exfalso
        rw [List.get?_eq_none.mpr (by simpa using h2)] at h
        exact Option.noConfusion h
  refine ⟨⟨hnd0, ?_, hL.inv.vis_mem, ?_, ?_, ?_, hL.inv.index_nonneg,
      hL.inv.idx_bound, ?_, ?_, hos', foldl_erase_nodup _ _ hL.inv.onStack_nodup,
      ?_, ?_, ?_⟩,
    ?_, hL.vis_v, hL.pres, le_of_lt hL.idx_lt, hL.fresh, hL.idx_v, ?_,
    Or.inl ⟨rfl, (hemit3 v).mpr (Or.inr (List.mem_cons_self _ _)), hroot⟩⟩
  · intro x hx
    exact hL.inv.stack_vis x (by rw [hT]; exact List.mem_append_left _ hx)
  · intro x hx
    rcases hL.inv.vis_cover x hx with h | h
    · rw [hT] at h
      rcases List.mem_append.mp h with h2 | h2
      · exact Or.inl h2
      · exact Or.inr ((hemit3 x).mpr (Or.inr h2))
    · exact Or.inr ((hemit3 x).mpr (Or.inl h))
  · intro x hx hem
    rcases (hemit3 x).mp hem with h | h
    · exact hL.inv.stack_unemitted x (by rw [hT]; exact List.mem_append_left _ hx) h
    · rcases List.mem_cons.mp h with h2 | h2
      · rw [h2] at hx
        exact hv0 hx
      · exact hdisj hx (List.mem_cons_of_mem _ h2)
  · intro x hem
    rcases (hemit3 x).mp hem with h | h
    · exact hL.inv.emitted_vis x h
    · exact hvsegment x h
  · intro x hx
    exact hL.inv.low_le x (by rw [hT]; exact List.mem_append_left _ hx)
  · intro x hx
    have hx2 : x ∈ t2.stack := by rw [hT]; exact List.mem_append_left _ hx
    obtain ⟨y, hy, hxy⟩ := hL.inv.low_open x hx2
    rw [hT] at hy
    rcases List.mem_append.mp hy with h | h
    · exact ⟨y, h, hxy⟩
    · exfalso
      have h1 := hidxT_big y h
      have h2 := hL.inv.low_le x hx2
      have h3 := hidx0 x hx
      omega
  · intro c hc
    rcases List.mem_append.mp hc with h | h
    · exact hL.inv.sccs_nodup c h
    · rw [List.mem_singleton] at h
      rw [h, List.nodup_append]
      refine ⟨List.nodup_reverse.mpr hndT, List.nodup_singleton v, ?_⟩
      intro a ha hb
      rw [List.mem_singleton] at hb
      rw [List.mem_reverse] at ha
      rw [hb] at ha
      exact hvT ha
  · intro i j ci cj x hci hcj hxi hxj
    rcases hlen hci with ⟨hi, hgi⟩ | ⟨hi, hgi⟩ <;>
      rcases hlen hcj with ⟨hj, hgj⟩ | ⟨hj, hgj⟩
    · exact hL.inv.sccs_disj i j ci cj x hgi hgj hxi hxj
    · exfalso
      rw [hgj] at hxj
      have hxs : x ∈ t2.stack :=
        hseg_stack x ((hsegmem x).mp ((hsccmem x).mp hxj))
      exact hL.inv.stack_unemitted x hxs ⟨ci, List.get?_mem hgi, hxi⟩
    · exfalso
      rw [hgi] at hxi
      have hxs : x ∈ t2.stack :=
        hseg_stack x ((hsegmem x).mp ((hsccmem x).mp hxi))
      exact hL.inv.stack_unemitted x hxs ⟨cj, List.get?_mem hgj, hxj⟩
    · rw [hi, hj]
  · intro i ci hci x hx w hw
    rcases hlen hci with ⟨hi, hgi⟩ | ⟨hi, hgi⟩
    · obtain ⟨j, cj, hj, hget, hwc⟩ := hL.inv.sccs_closed i ci hgi x hx w hw
      refine ⟨j, cj, hj, ?_, hwc⟩
      rw [List.get?_append (lt_of_le_of_lt hj hi)]
      exact hget
    · rw [hgi] at hx
      have hxseg : x ∈ v :: T := (hsegmem x).mp ((hsccmem x).mp hx)
      rcases hseg_target x hxseg w hw with h | h
      · obtain ⟨c, hc, hwc⟩ := h
        obtain ⟨j, hj⟩ := List.mem_iff_get?.mp hc
        have hjlt : j < t2.sccs.length := by
          by_contra hge
          push_neg at hge
          rw [List.get?_eq_none.mpr hge] at hj
          exact Option.noConfusion hj
        refine ⟨j, c, by omega, ?_, hwc⟩
        rw [List.get?_append hjlt]
        exact hj
      · refine ⟨t2.sccs.length, T.reverse ++ [v], by omega, ?_,
          (hsccmem w).mpr ((hsegmem w).mpr h)⟩
        exact get?_append_last _ _
  · intro u hu huA w hw
    have hune : u ≠ v := fun hc => hv0 (by rw [← hc]; exact hu)
    obtain ⟨h1, h2⟩ := hL.cs u (by rw [hT]; exact List.mem_append_left _ hu)
      (by
        intro hc
        rcases List.mem_cons.mp hc with h | h
        · exact hune h
        · exact huA h) w hw
    refine ⟨h1, ?_⟩
    rcases h2 with h2 | h2
    · exact Or.inl ((hemit3 w).mpr (Or.inl h2))
    · exact Or.inr h2
  · obtain ⟨ns, hns⟩ := hL.sccs_ext
    exact ⟨ns ++ [T.reverse ++ [v]], by
      show t2.sccs ++ _ = _
      rw [hns, List.append_assoc]⟩

theorem nopop_step {U : List Int} {succ : Int → List Int} {A : List Int}
    {v : Int} {t0 t2 : TState}
    (hL : LInv U succ A v t0 t2)
    (hPV : ∀ w ∈ succ v, vis t2 w ∧ (emittedT t2 w ∨ lowT t2 v ≤ idxT t2 w))
    (hroot : lowT t2 v ≠ idxT t2 v) :
    SPost U succ A v t0 t2 := by
  obtain ⟨T, hT, hTf, hTlb⟩ := hL.stack_ext
  refine ⟨hL.inv, ?_, hL.vis_v, hL.pres, le_of_lt hL.idx_lt, hL.fresh, hL.idx_v,
    hL.sccs_ext, Or.inr ⟨v :: T, hT, List.mem_cons_self _ _, ?_, ?_, hroot⟩⟩
  · intro u hu huA w hw
    by_cases huv : u = v
    · rw [huv]
      exact hPV w (by rw [← huv]; exact hw)
    · refine hL.cs u hu ?_ w hw
      intro hc
      rcases List.mem_cons.mp hc with h | h
      · exact huv h
      · exact huA h
  · intro x hx
    rcases List.mem_cons.mp hx with h | h
    · rw [h]; exact hL.nv0
    · exact (hTf x h).1
  · intro x hx
    rcases List.mem_cons.mp hx with h | h
    · rw [h]
    · exact hTlb x h

theorem strongconnect_spec {U : List Int} {succ : Int → List Int}
    (hsucc : ∀ x ∈ U, ∀ w ∈ succ x, w ∈ U) :
    ∀ (fuel : Nat) (v : Int) (t : TState) (A : List Int),
    TInv U succ t → csInv succ A t → (∀ a ∈ A, vis t a) →
    v ∈ U → ¬ vis t v → unvisCount U t < fuel →
    ∃ t', strongconnect succ fuel v t = some t' ∧ SPost U succ A v t t' := by
  intro fuel
  induction fuel with
  | zero =>
    intro v t A _ _ _ _ _ hm
    exact absurd hm (Nat.not_lt_zero _)
  | succ n ih =>
    intro v t A hinv hcs hA hvU hnv hm
    rw [strongconnect]
    have hL1 : LInv U succ A v t (pushT t v) := push_step hinv hcs hA hvU hnv
    have hm1 : unvisCount U (pushT t v) < n := by
      have hlt : unvisCount U (pushT t v) < unvisCount U t := by
        refine unvisCount_lt ?_ hvU hnv ?_
        · intro x hx
          exact (vis_pushT hinv.index_nonneg x).mpr (Or.inr hx)
        · exact (vis_pushT hinv.index_nonneg v).mpr (Or.inl rfl)
      omega
    obtain ⟨t2, hrun, hL2, hPV2, hm2⟩ :=
      succLoop_spec n
        (fun w tt h1 h2 h3 h4 h5 h6 => ih w tt (v :: A) h1 h2 h3 h4 h5 h6)
        (succ v) (pushT t v) []
        (fun w hw => hsucc v hvU w hw) hL1 (by simp) hm1
    rw [hrun]
    dsimp only
    have hPV : ∀ w ∈ succ v, vis t2 w ∧ (emittedT t2 w ∨ lowT t2 v ≤ idxT t2 w) := by
      simpa using hPV2
    by_cases hroot : t2.lowLink.getD v 0 = t2.indexTable.getD v 0
    · rw [if_pos hroot]
      obtain ⟨restRev, os, scc, hploop, hspost⟩ := pop_step hL2 hPV hroot
      rw [hploop]
      exact ⟨_, rfl, hspost⟩
    · rw [if_neg hroot]
      exact ⟨t2, rfl, nopop_step hL2 hPV hroot⟩

theorem tarjanRun_spec {U : List Int} {succ : Int → List Int}
    (hsucc : ∀ x ∈ U, ∀ w ∈ succ x, w ∈ U) (fuel : Nat) :
    ∀ (vs : List Int) (t : TState),
    (∀ v ∈ vs, v ∈ U) → TInv U succ t → t.stack = [] →
    unvisCount U t < fuel →
    ∃ t', tarjanRun succ fuel vs t = some t' ∧ TInv U succ t' ∧ t'.stack = [] ∧
      (∀ v ∈ vs, vis t' v) ∧ (∀ x, vis t x → vis t' x) ∧
      unvisCount U t' < fuel := by
  intro vs
  induction vs with
  | nil =>
    intro t _ hinv hst hm
    exact ⟨t, rfl, hinv, hst, by simp, fun _ h => h, hm⟩
  | cons w vs ih =>
    intro t hvs hinv hst hm
    rw [tarjanRun]
    by_cases hw : t.indexTable.getD w 0 = 0
    · rw [if_pos hw]
      have hcs : csInv succ [] t := by
        intro u hu
        rw [hst] at hu
        exact absurd hu (List.not_mem_nil u)
      obtain ⟨t', hsc, hpost⟩ := strongconnect_spec hsucc fuel w t []
        hinv hcs (by intro a ha; exact absurd ha (List.not_mem_nil a))
        (hvs w (List.mem_cons_self _ _)) (by simpa [vis] using hw) hm
      rw [hsc]
      have hstack' : t'.stack = [] := by
        rcases hpost.split with ⟨hs, -, -⟩ | ⟨S, hs, hvS, hSnv, hSlb, hne⟩
        · rw [hs, hst]
        · exfalso
          have hw' : w ∈ t'.stack := by
            rw [hs, hst, List.nil_append]
            exact hvS
          obtain ⟨y, hy, hxy⟩ := hpost.inv.low_open w hw'
          have hyS : y ∈ S := by
            rw [hs, hst, List.nil_append] at hy
            exact hy
          have h1 : t.index < idxT t' y :=
            hpost.fresh y (hpost.inv.stack_vis y hy) (hSnv y hyS)
          have h2 : lowT t' w ≤ idxT t' w := hpost.inv.low_le w hw'
          have h3 : idxT t' w = t.index + 1 := hpost.idx_v
          apply hne
          omega
      have hm' : unvisCount U t' < fuel := by
        have h4 := unvisCount_mono (U := U) (fun x hx => (hpost.pres x hx).1)
        omega
      obtain ⟨t'', hrun, hinv'', hst'', hall'', hmono'', hm''⟩ :=
        ih t' (fun u hu => hvs u (List.mem_cons_of_mem _ hu)) hpost.inv hstack' hm'
      refine ⟨t'', hrun, hinv'', hst'', ?_, ?_, hm''⟩
      · intro u hu
        rcases List.mem_cons.mp hu with h | h
        · rw [h]
          exact hmono'' w hpost.vis_v
        · exact hall'' u h
      · intro x hx
        exact hmono'' x (hpost.pres x hx).1
    · rw [if_neg hw]
      obtain ⟨t'', hrun, hinv'', hst'', hall'', hmono'', hm''⟩ :=
        ih t (fun u hu => hvs u (List.mem_cons_of_mem _ hu)) hinv hst hm
      refine ⟨t'', hrun, hinv'', hst'', ?_, hmono'', hm''⟩
      intro u hu
      rcases List.mem_cons.mp hu with h | h
      · rw [h]
        exact hmono'' w (by simpa [vis] using hw)
      · exact hall'' u h

theorem tinv_init (U : List Int) (succ : Int → List Int) : TInv U succ tarjanInit := by
  have hnv : ∀ x, ¬ vis tarjanInit x := by
    intro x
    simp [vis, tarjanInit, IntMap.getD, IntMap.get?, IntMap.empty]
  have hnone : ∀ (i : Nat), (tarjanInit.sccs).get? i = none := by
    intro i
    rfl
  refine ⟨List.nodup_nil, by simp [tarjanInit], ?_, ?_, by simp [tarjanInit], ?_,
    le_refl 0, ?_, by simp [tarjanInit], by simp [tarjanInit], fun _ => Iff.rfl,
    List.nodup_nil, by simp [tarjanInit], ?_, ?_⟩
  · exact fun x hx => absurd hx (hnv x)
  · exact fun x hx => absurd hx (hnv x)
  · rintro x ⟨c, hc, -⟩
    exact absurd hc (List.not_mem_nil c)
  · exact fun x hx => absurd hx (hnv x)
  · intro i j ci cj x hci
    rw [hnone i] at hci
    exact Option.noConfusion hci
  · intro i ci hci
    rw [hnone i] at hci
    exact Option.noConfusion hci

theorem unvisCount_init (U : List Int) : unvisCount U tarjanInit = U.length := by
  rw [unvisCount]
  rw [List.filter_eq_self.mpr]
  intro a _
  simp [tarjanInit, IntMap.getD, IntMap.get?, IntMap.empty]

/-- C6: on any directed graph (node list `U`, successor function `succ`
closed over `U`), `TarjanSCC` terminates and the emitted component list
partitions the node set — every node lies in some component, no node lies
in two components (nor twice in one) — and components appear in reverse
topological order of the condensation: every edge `x → w` lands in a
component emitted no later than (index `≤`) the component of its source. -/
theorem tarjanSCC_partitions_reverse_topological {U : List Int}
    {succ : Int → List Int}
    (hsucc : ∀ x ∈ U, ∀ w ∈ succ x, w ∈ U) :
    ∃ sccs : List (List Int),
      tarjanSCC succ U (U.length + 1) = some sccs ∧
      (∀ x ∈ U, ∃ i c, sccs.get? i = some c ∧ x ∈ c) ∧
      (∀ i j ci cj x, sccs.get? i = some ci → sccs.get? j = some cj →
        x ∈ ci → x ∈ cj → i = j) ∧
      (∀ c ∈ sccs, c.Nodup) ∧
      (∀ c ∈ sccs, ∀ x ∈ c, x ∈ U) ∧
      (∀ i ci, sccs.get? i = some ci → ∀ x ∈ ci, ∀ w ∈ succ x,
        ∃ j cj, j ≤ i ∧ sccs.get? j = some cj ∧ w ∈ cj) := by
  obtain ⟨t', hrun, hinv', hst', hall', -, -⟩ :=
    tarjanRun_spec hsucc (U.length + 1) U tarjanInit (fun v hv => hv)
      (tinv_init U succ) rfl (by rw [unvisCount_init]; omega)
  refine ⟨t'.sccs, ?_, ?_, hinv'.sccs_disj, hinv'.sccs_nodup, ?_,
    hinv'.sccs_closed⟩
  · rw [tarjanSCC, hrun]
    rfl
  · intro x hx
    rcases hinv'.vis_cover x (hall' x hx) with h | h
    · rw [hst'] at h
      exact absurd h (List.not_mem_nil x)
    · obtain ⟨c, hc, hxc⟩ := h
      obtain ⟨i, hi⟩ := List.mem_iff_get?.mp hc
      exact ⟨i, c, hi, hxc⟩
  · intro c hc x hxc
    exact hinv'.vis_mem x (hinv'.emitted_vis x ⟨c, hc, hxc⟩)

theorem tarjanSCC_partitions_reverse_topological_witness :
    ∃ sccs : List (List Int),
      tarjanSCC
        (fun x => if x = 1 then [2] else if x = 2 then [1] else
          if x = 3 then [1] else []) [1, 2, 3] 4 = some sccs ∧
      (∀ x ∈ [(1 : Int), 2, 3], ∃ i c, sccs.get? i = some c ∧ x ∈ c) ∧
      (∀ i j ci cj x, sccs.get? i = some ci → sccs.get? j = some cj →
        x ∈ ci → x ∈ cj → i = j) ∧
      (∀ c ∈ sccs, c.Nodup) ∧
      (∀ c ∈ sccs, ∀ x ∈ c, x ∈ [(1 : Int), 2, 3]) ∧
      (∀ i ci, sccs.get? i = some ci → ∀ x ∈ ci,
        ∀ w ∈ (fun x => if x = 1 then [2] else if x = 2 then [1] else
          if x = 3 then [1] else []) x,
        ∃ j cj, j ≤ i ∧ sccs.get? j = some cj ∧ w ∈ cj) :=
  tarjanSCC_partitions_reverse_topological (by decide)

end Tarjan

end Gonum

